import Mathlib

/-!
Image deletion engine and monitor notification (daemon/image_delete.go,
daemon/monitor_process.go).

A shallow embedding of `DeleteImage`, `canDeleteImage` and `notifyDaemon`.
The daemon state is passed explicitly; the effect table `imgs` is a list that
grows at its end; Go errors are values of `DeleteError`.
-/

namespace DockerEric

/-! ## Data model -/

/-- An image node of the store: `image.Image` reduced to the two fields the engine reads. -/
structure Image where
  ID : String
  Parent : String
deriving DecidableEq, Repr

/-- One entry of the repository index: the key `(repo, tag)` bound to an image id. -/
structure Binding where
  repo : String
  tag : String
  id : String
deriving DecidableEq, Repr

/-- A container as `canDeleteImage` sees it. -/
structure Container where
  ID : String
  ImageID : String
  Running : Bool
deriving DecidableEq, Repr

/-- The part of `*Daemon` that image deletion reads and writes:
`daemon.Graph()`, `daemon.Repositories()` and `daemon.List()`. -/
structure Daemon where
  graph : List Image
  repositories : List Binding
  containers : List Container
deriving DecidableEq, Repr

/-- A row added to the `imgs` table: `out.Set("Untagged", ..)` or `out.SetJson("Deleted", ..)`. -/
inductive Effect where
  | Untagged (ref : String)
  | Deleted (id : String)
deriving DecidableEq, Repr

/-- The errors `DeleteImage` and `canDeleteImage` build with `fmt.Errorf`, one constructor per
format string, plus the error `WalkHistory` reports when a parent cannot be fetched.
`common.TruncateID` only shortens ids for display; the full ids are kept here. -/
inductive DeleteError where
  | blankName
  | noSuchImage (ref : String)
  | multiRepoConflict (name : String)
  | runningForceConflict (imgID containerID : String)
  | runningConflict (imgID containerID : String)
  | inUseConflict (imgID containerID : String)
  | parentLookup
deriving DecidableEq, Repr

/-- The messages that start with "Conflict". -/
def DeleteError.isConflict : DeleteError → Bool
  | .multiRepoConflict _ => true
  | .runningForceConflict _ _ => true
  | .runningConflict _ _ => true
  | .inUseConflict _ _ => true
  | _ => false

/-- The string helpers `DeleteImage` imports from packages that are not part of the sources
(`parsers.ParseRepositoryTag`, `utils.ImageReference`, `graph.DEFAULTTAG`), taken as parameters. -/
structure Names where
  ParseRepositoryTag : String → String × String
  ImageReference : String → String → String
  DEFAULTTAG : String

/-- What a call has produced when it returns: the daemon state, the `imgs` table and the
returned `error` (`none` is Go's `nil`). -/
structure Outcome where
  daemon : Daemon
  imgs : List Effect
  err : Option DeleteError
deriving DecidableEq, Repr

/-! ## `strings.Contains` -/

/-- Whether `sub` is an initial segment of `s`. -/
def startsWith : List Char → List Char → Bool
  | _, [] => true
  | [], _ :: _ => false
  | c :: s, x :: sub => decide (c = x) && startsWith s sub

/-- Substring test on character lists. -/
def containsChars : List Char → List Char → Bool
  | [], sub => startsWith [] sub
  | c :: s, sub => startsWith (c :: s) sub || containsChars s sub

/-- Go's `strings.Contains(s, sub)`. -/
def strContains (s sub : String) : Bool := containsChars s.data sub.data

/-! ## Collaborators: image store and repository index -/

/-- Modelled from the spec: `Graph.Get`, which is not among the sources. The store "exposes
lookup-by-id": the node whose id is the given one, if the store holds one (ids are compared
whole; abbreviated ids are outside the model). -/
def Graph.Get (g : List Image) (id : String) : Option Image :=
  g.find? (fun i => decide (i.ID = id))

/-- Modelled from the spec: `Graph.ByParent`, which is not among the sources. The "parent-index":
the child images of `id` are the nodes whose non-empty `ParentID` is `id`. -/
def Graph.ByParent (g : List Image) (id : String) : List Image :=
  g.filter (fun c => decide (c.Parent ≠ "" ∧ c.Parent = id))

/-- Modelled from the spec: `Graph.Delete`, which is not among the sources. "delete-node":
the node with the given id leaves the store. -/
def Graph.Delete (g : List Image) (id : String) : List Image :=
  g.filter (fun i => decide (i.ID ≠ id))

/-- Modelled from the spec: `TagStore.Get`, which is not among the sources: the bindings of one
repository name (Go's `nil` is the empty list). -/
def TagStore.Get (idx : List Binding) (repoName : String) : List Binding :=
  idx.filter (fun b => decide (b.repo = repoName))

/-- Modelled from the spec: `TagStore.ByID`, which is not among the sources.
"bindings-by-image-id": the references `repo:tag` of all bindings on one image id. -/
def TagStore.ByID (N : Names) (idx : List Binding) (id : String) : List String :=
  (idx.filter (fun b => decide (b.id = id))).map (fun b => N.ImageReference b.repo b.tag)

/-- Modelled from the spec: `TagStore.Delete`, which is not among the sources. "delete-one":
removes the binding with key `(repoName, tag)` and reports whether there was one. -/
def TagStore.Delete (idx : List Binding) (repoName tag : String) : Bool × List Binding :=
  if idx.any (fun b => decide (b.repo = repoName ∧ b.tag = tag)) then
    (true, idx.filter (fun b => decide (¬ (b.repo = repoName ∧ b.tag = tag))))
  else (false, idx)

/-- Modelled from the spec: `TagStore.DeleteAll`, which is not among the sources. "delete-all":
removes every binding on the given image id. -/
def TagStore.DeleteAll (idx : List Binding) (id : String) : List Binding :=
  idx.filter (fun b => decide (b.id ≠ id))

/-- Modelled from the spec: `TagStore.LookupImage`, which is not among the sources. "Resolve
name via the store/index": a name whose `(repo, tag)` reading (tag defaulting to `DEFAULTTAG`)
is a key of the index resolves to the bound image; any other name is looked up in the store as
an id. `none` is the not-found error. -/
def LookupImage (N : Names) (d : Daemon) (name : String) : Option Image :=
  let rt := N.ParseRepositoryTag name
  let tag := if rt.2 = "" then N.DEFAULTTAG else rt.2
  match d.repositories.find? (fun b => decide (b.repo = rt.1 ∧ b.tag = tag)) with
  | some b => Graph.Get d.graph b.id
  | none => Graph.Get d.graph name

/-- Modelled from the spec: `Image.WalkHistory`, which is not among the sources. "walk the
container's image ancestry": the handler runs on the image, then on its parent, and so on up to
a root (empty `Parent`); the first handler error ends the walk, and a parent that the store
cannot fetch is an error. The walk takes at most `fuel` steps; the outer `none` is a walk that
has not ended by then. -/
def WalkHistory (g : List Image) (handler : Image → Option DeleteError) :
    Nat → Image → Option (Option DeleteError)
  | 0, _ => none
  | fuel + 1, img =>
    match handler img with
    | some e => some (some e)
    | none =>
      if img.Parent = "" then some none
      else match Graph.Get g img.Parent with
        | none => some (some .parentLookup)
        | some p => WalkHistory g handler fuel p

/-! ## `canDeleteImage` (image_delete.go, lines 144-171) -/

/-- The closure passed to `WalkHistory` at lines 154-166. -/
def canDeleteHandler (imgID : String) (force : Bool) (container : Container) (p : Image) :
    Option DeleteError :=
  if imgID = p.ID then
    if container.Running then
      if force then some (.runningForceConflict imgID container.ID)
      else some (.runningConflict imgID container.ID)
    else if !force then some (.inUseConflict imgID container.ID)
    else none
  else none

/-- The loop over `daemon.List()`. A container whose image cannot be resolved ends the whole
check with `nil` (lines 147-150; not-found is the only way `LookupImage` fails here, so the
`return err` of line 151 is never taken). -/
def canDeleteLoop (N : Names) (d : Daemon) (imgID : String) (force : Bool) :
    List Container → Option (Option DeleteError)
  | [] => some none
  | container :: rest =>
    match LookupImage N d container.ImageID with
    | none => some none
    | some parent =>
      match WalkHistory d.graph (canDeleteHandler imgID force container)
          (d.graph.length + 1) parent with
      | none => none
      | some (some e) => some (some e)
      | some none => canDeleteLoop N d imgID force rest

/-- The function `canDeleteImage`: the loop run on `daemon.List()`. The outer `none` is a
history walk that does not end. -/
def canDeleteImage (N : Names) (d : Daemon) (imgID : String) (force : Bool) :
    Option (Option DeleteError) :=
  canDeleteLoop N d imgID force d.containers

/-! ## `DeleteImage` (image_delete.go, lines 40-142) -/

/-- The loop of lines 78-90: starting from `repoName = ""` it adopts the repository of the
first reference, collects the tags of that repository, and on a reference of another
repository returns the conflict when `!force && first`. -/
def collectTags (N : Names) (name : String) (force first : Bool) :
    List String → String → List String → Except DeleteError (String × List String)
  | [], repoName, tags => .ok (repoName, tags)
  | repoAndTag :: rest, repoName, tags =>
    let parsed := N.ParseRepositoryTag repoAndTag
    if repoName = "" ∨ repoName = parsed.1 then
      collectTags N name force first rest parsed.1
        (if parsed.2 ≠ "" then tags ++ [parsed.2] else tags)
    else if repoName ≠ parsed.1 ∧ force = false ∧ first = true then
      .error (.multiRepoConflict name)
    else collectTags N name force first rest repoName tags

/-- The loop of lines 106-117: each tag is deleted from the index, and each deletion that
removed a binding adds an `Untagged` row. -/
def untagLoop (N : Names) (repoName : String) :
    List String → List Binding → List Effect → List Binding × List Effect
  | [], idx, imgs => (idx, imgs)
  | tag :: rest, idx, imgs =>
    let r := TagStore.Delete idx repoName tag
    untagLoop N repoName rest r.2
      (if r.1 then imgs ++ [.Untagged (N.ImageReference repoName tag)] else imgs)

/-- Where one invocation of `DeleteImage` stands when it either returns or reaches the
recursive call of line 132. -/
inductive Frame where
  | done (o : Outcome)
  | prune (d : Daemon) (imgs : List Effect) (parent : String)
deriving DecidableEq, Repr

/-- One invocation of `DeleteImage` up to (not including) the recursive call of line 132.
The outer `none` is a history walk inside `canDeleteImage` that does not end. The audit-log
jobs (`eng.Job("log", ..)`) write to a sink outside the model, and the store and index
operations do not fail here, so the `return err` of lines 71, 109, 122 and 125 is never
taken. -/
def DeleteImageBody (N : Names) (d : Daemon) (imgs : List Effect) (name : String)
    (first force noprune : Bool) : Option Frame :=
  let parsed := N.ParseRepositoryTag name
  let repoName := parsed.1
  let tag := if parsed.2 = "" then N.DEFAULTTAG else parsed.2
  if name = "" then some (.done ⟨d, imgs, some .blankName⟩)
  else
    match LookupImage N d name with
    | none =>
      if TagStore.Get d.repositories repoName ≠ [] then
        some (.done ⟨d, imgs, some (.noSuchImage (N.ImageReference repoName tag))⟩)
      else some (.done ⟨d, imgs, some (.noSuchImage name)⟩)
    | some img =>
      let repoName := if strContains img.ID name then "" else repoName
      let tag := if strContains img.ID name then "" else tag
      let byParents := Graph.ByParent d.graph
      let repos := TagStore.ByID N d.repositories img.ID
      match (if repoName = "" then collectTags N name force first repos repoName []
             else .ok (repoName, [tag])) with
      | .error e => some (.done ⟨d, imgs, some e⟩)
      | .ok (repoName, tags) =>
        if first = false ∧ tags.length > 0 then some (.done ⟨d, imgs, none⟩)
        else
          match (if repos.length ≤ 1 then canDeleteImage N d img.ID force else some none) with
          | none => none
          | some (some e) => some (.done ⟨d, imgs, some e⟩)
          | some none =>
            let u := untagLoop N repoName tags d.repositories imgs
            let d1 : Daemon := { d with repositories := u.1 }
            let tags := TagStore.ByID N d1.repositories img.ID
            if (tags.length ≤ 1 ∧ repoName = "") ∨ tags.length = 0 then
              if (byParents img.ID).length = 0 then
                let d2 : Daemon :=
                  { d1 with repositories := TagStore.DeleteAll d1.repositories img.ID }
                let d3 : Daemon := { d2 with graph := Graph.Delete d2.graph img.ID }
                let imgs1 := u.2 ++ [.Deleted img.ID]
                if img.Parent ≠ "" ∧ noprune = false then
                  some (.prune d3 imgs1 img.Parent)
                else some (.done ⟨d3, imgs1, none⟩)
              else some (.done ⟨d1, u.2, none⟩)
            else some (.done ⟨d1, u.2, none⟩)

/-- The function `DeleteImage` with a bound on the depth of the recursion of line 132: the
nested call runs with `first = false`, its state and rows are kept, and its error is returned
only when this invocation is the `first` one (lines 133-135); otherwise line 141 returns
`nil`. The outer `none` is an exhausted bound or a history walk that does not end. -/
def DeleteImageFuel (N : Names) :
    Nat → Daemon → List Effect → String → Bool → Bool → Bool → Option Outcome
  | 0, _, _, _, _, _, _ => none
  | fuel + 1, d, imgs, name, first, force, noprune =>
    match DeleteImageBody N d imgs name first force noprune with
    | none => none
    | some (.done o) => some o
    | some (.prune d1 imgs1 parent) =>
      match DeleteImageFuel N fuel d1 imgs1 parent false force noprune with
      | none => none
      | some o => some (if first then o else { o with err := none })

/-- The function `DeleteImage`: every nested call runs after the store has lost a node, so the
recursion is no deeper than the number of nodes in the store. -/
def DeleteImage (N : Names) (d : Daemon) (imgs : List Effect) (name : String)
    (first force noprune : Bool) : Option Outcome :=
  DeleteImageFuel N (d.graph.length + 1) d imgs name first force noprune

/-! ## Monitor notification (monitor_process.go, lines 23-39 and 136-200) -/

/-- The constant `http_retry_times`. -/
def http_retry_times : Nat := 5

/-- The constant `http_retry_interval_second`. -/
def http_retry_interval_second : Nat := 3

/-- The constant `start_status_file`. -/
def start_status_file : String := "start_status"

/-- The constant `stop_status_file`. -/
def stop_status_file : String := "stop_status"

/-- The constant `notify_start_url`. -/
def notify_start_url : String := "http://127.0.0.1:2375/monitor/%s/start"

/-- The constant `notify_stop_url`. -/
def notify_stop_url : String := "http://127.0.0.1:2375/monitor/%s/stop"

/-- What the network does with one call of `httpNotify`: building the request fails, the
transport fails, or a response with a status code and a body arrives. -/
inductive PushOutcome where
  | requestError (e : String)
  | transportError (e : String)
  | response (status : Nat) (body : String)
deriving DecidableEq, Repr

/-- The function `httpNotify` (lines 183-200): `nil` exactly for a response with `http.StatusNoContent`
(204); a response with another status is the error made of its body. -/
def httpNotify (o : PushOutcome) : Option String :=
  match o with
  | .requestError e => some e
  | .transportError e => some e
  | .response status body => if status = 204 then none else some body

/-- What `notifyDaemon` does to the outside, in order: a completed write of the status file, a
push attempt, a sleep of so many seconds. -/
inductive Event where
  | WriteFile (file : String) (data : String)
  | Post (url : String) (cid : String) (data : String)
  | Sleep (seconds : Nat)
deriving DecidableEq, Repr

/-- The loop of lines 169-179, with `n` iterations left and loop variable `i`; `push j` is the
outcome of the attempt made in iteration `j`. Returns the events and the returned error
(`none` when the loop ends and line 180 returns `nil`). -/
def notifyLoop (push : Nat → PushOutcome) (url cid d : String) :
    Nat → Nat → List Event × Option String
  | 0, _ => ([], none)
  | n + 1, i =>
    match httpNotify (push i) with
    | some err =>
      if i = http_retry_times - 1 then ([.Post url cid d], some err)
      else
        let r := notifyLoop push url cid d n (i + 1)
        (.Post url cid d :: .Sleep http_retry_interval_second :: r.1, r.2)
    | none => ([.Post url cid d], none)

/-- The function `notifyDaemon` (lines 165-181). `writeErr` is what `dumpToDisk` returns for this call
(`none` when the file has been written). -/
def notifyDaemon (writeErr : Option String) (push : Nat → PushOutcome)
    (url cid file d : String) : List Event × Option String :=
  match writeErr with
  | some e => ([], some e)
  | none =>
    let r := notifyLoop push url cid d http_retry_times 0
    (.WriteFile file d :: r.1, r.2)

/-- The function `notifyStart` (lines 149-155); `marshalled` is what `json.Marshal(status)` returns. -/
def notifyStart (marshalled : Except String String) (writeErr : Option String)
    (push : Nat → PushOutcome) (cid : String) : List Event × Option String :=
  match marshalled with
  | .error e => ([], some e)
  | .ok d => notifyDaemon writeErr push notify_start_url cid start_status_file d

/-- The function `notifyStop` (lines 157-163); `marshalled` is what `json.Marshal(status)` returns. -/
def notifyStop (marshalled : Except String String) (writeErr : Option String)
    (push : Nat → PushOutcome) (cid : String) : List Event × Option String :=
  match marshalled with
  | .error e => ([], some e)
  | .ok d => notifyDaemon writeErr push notify_stop_url cid stop_status_file d

/-- The events of `k` failed attempts that are each followed by the retry sleep. -/
def failedAttempts (url cid d : String) (k : Nat) : List Event :=
  (List.replicate k [Event.Post url cid d, Event.Sleep 3]).flatten

/-! ## Well-formedness of the store and image ancestry (data model) -/

/-- The images a history walk visits from `img` in at most `fuel` steps, in the order of the
walk: the image, its parent, and so on until a root or a parent the store cannot fetch. -/
def history (g : List Image) : Nat → Image → List Image
  | 0, _ => []
  | fuel + 1, img =>
    img :: (if img.Parent = "" then []
            else match Graph.Get g img.Parent with
              | none => []
              | some p => history g fuel p)

/-- The image ancestry of `img` in the store of `d`, with the step bound `canDeleteImage`
walks it with. -/
def ancestry (d : Daemon) (img : Image) : List Image :=
  history d.graph (d.graph.length + 1) img

/-- Every image with a non-empty parent id has that parent in the store. -/
def ParentClosed (g : List Image) : Prop :=
  ∀ img ∈ g, img.Parent ≠ "" → ∃ p ∈ g, p.ID = img.Parent

instance (g : List Image) : Decidable (ParentClosed g) := by
  unfold ParentClosed
  infer_instance

/-- The rank strictly drops from every image of the store to its parent. -/
def Ranked (rank : String → Nat) (g : List Image) : Prop :=
  ∀ img ∈ g, ∀ p ∈ g, img.Parent ≠ "" → p.ID = img.Parent → rank p.ID < rank img.ID

instance (rank : String → Nat) (g : List Image) : Decidable (Ranked rank g) := by
  unfold Ranked
  infer_instance

/-- The parent links of the store have no cycle: some rank strictly drops from every image to
its parent. -/
def Acyclic (g : List Image) : Prop :=
  ∃ rank : String → Nat, Ranked rank g

/-- The bindings of the index on one image id. -/
def bindingsOf (idx : List Binding) (id : String) : List Binding :=
  idx.filter (fun b => decide (b.id = id))

/-- The index is a map: no two bindings share their key `(repo, tag)`. -/
def KeysUnique (idx : List Binding) : Prop :=
  (idx.map (fun b => (b.repo, b.tag))).Nodup

instance (idx : List Binding) : Decidable (KeysUnique idx) := by
  unfold KeysUnique
  infer_instance

/-- The bindings are named as the helpers expect: repository and tag are non-empty and the
reference `repo:tag` of a binding parses back to its key. -/
def RefsParse (N : Names) (idx : List Binding) : Prop :=
  ∀ b ∈ idx, N.ParseRepositoryTag (N.ImageReference b.repo b.tag) = (b.repo, b.tag) ∧
    b.tag ≠ "" ∧ b.repo ≠ ""

instance (N : Names) (idx : List Binding) : Decidable (RefsParse N idx) := by
  unfold RefsParse
  infer_instance

/-- No container's image ancestry contains an image whose id is in `ids`. -/
def Unreferenced (N : Names) (d : Daemon) (ids : List String) : Prop :=
  ∀ c ∈ d.containers, ∀ ci ∈ LookupImage N d c.ImageID, ∀ x ∈ ancestry d ci, x.ID ∉ ids

instance (N : Names) (d : Daemon) (ids : List String) : Decidable (Unreferenced N d ids) := by
  unfold Unreferenced
  infer_instance

/-- The image `z` is the parent of `y` as `DeleteImage` resolves it, `z` has no binding, and
`y` is its only child. -/
def ParentLink (N : Names) (d : Daemon) (y z : Image) : Prop :=
  y.Parent ≠ "" ∧ LookupImage N d y.Parent = some z ∧
    bindingsOf d.repositories z.ID = [] ∧ Graph.ByParent d.graph z.ID = [y]

instance (N : Names) (d : Daemon) (y z : Image) : Decidable (ParentLink N d y z) := by
  unfold ParentLink
  infer_instance

/-- A list of images in which each one is linked to the next by `ParentLink`. -/
def IsChain (N : Names) (d : Daemon) : List Image → Prop
  | [] => True
  | [_] => True
  | y :: z :: rest => ParentLink N d y z ∧ IsChain N d (z :: rest)

/-- The cascade ends above the image `t`, the top of the chain with ids `ids`: `t` is a root,
or its parent still has a binding, or its parent still has a child that is not on the chain. -/
def StopsAbove (N : Names) (d : Daemon) (ids : List String) (t : Image) : Prop :=
  t.Parent = "" ∨
    ∃ s, Graph.Get d.graph t.Parent = some s ∧ LookupImage N d t.Parent = some s ∧
      (bindingsOf d.repositories s.ID ≠ [] ∨
        ∃ x ∈ Graph.ByParent d.graph s.ID, x.ID ∉ ids)

/-- The form of `StopsAbove` that the nested frames keep: the parent of `t`, as `DeleteImage`
resolves it, is off the chain and still has a binding or a child off the chain. -/
def HaltsAbove (N : Names) (d : Daemon) (ids : List String) (t : Image) : Prop :=
  t.Parent = "" ∨
    ∃ s, LookupImage N d t.Parent = some s ∧ s.ID ∉ ids ∧
      (bindingsOf d.repositories s.ID ≠ [] ∨
        ∃ x ∈ Graph.ByParent d.graph s.ID, x.ID ∉ ids)

/-- The store after the nodes of the listed images have been deleted, first to last. -/
def pruneChain (g : List Image) (chain : List Image) : List Image :=
  chain.foldl (fun g y => Graph.Delete g y.ID) g

/-! ## A concrete instance of the string helpers -/

/-- Splits a character list at its last colon: the part before it and, when there is a colon,
the part after it. -/
def splitLastColon : List Char → List Char × Option (List Char)
  | [] => ([], none)
  | c :: rest =>
    match splitLastColon rest with
    | (r, some t) => (c :: r, some t)
    | (r, none) => if c = ':' then ([], some r) else (c :: r, none)

/-- The usual helpers: a reference is `repo:tag`, a name is split at its last colon unless what
follows contains a slash, and the default tag is `latest`. -/
def stdNames : Names where
  ParseRepositoryTag := fun s =>
    match splitLastColon s.data with
    | (r, some t) => if t.contains '/' then (s, "") else (String.mk r, String.mk t)
    | (_, none) => (s, "")
  ImageReference := fun r t => r ++ ":" ++ t
  DEFAULTTAG := "latest"

/-! ## Example states -/

/-- One image `x` with two tags in one repository, used by a running container. -/
def exTwoTags : Daemon where
  graph := [⟨"x", ""⟩, ⟨"y", ""⟩]
  repositories := [⟨"a", "1", "x"⟩, ⟨"a", "2", "x"⟩]
  containers := [⟨"c1", "x", true⟩]

/-- One image `x` with one tag, used by a running container that is listed after a container
whose image is no longer in the store. -/
def exDangling : Daemon where
  graph := [⟨"x", ""⟩, ⟨"y", ""⟩]
  repositories := [⟨"a", "1", "x"⟩]
  containers := [⟨"c0", "gone", false⟩, ⟨"c1", "x", true⟩]

/-- One image `x` with one tag, used by a running container listed after a stopped container
of another image. -/
def exRunning : Daemon where
  graph := [⟨"x", ""⟩, ⟨"y", ""⟩]
  repositories := [⟨"a", "1", "x"⟩]
  containers := [⟨"c0", "y", false⟩, ⟨"c1", "x", true⟩]

/-- One image `x` tagged in two repositories, no container. -/
def exTwoRepos : Daemon where
  graph := [⟨"x", ""⟩]
  repositories := [⟨"a", "1", "x"⟩, ⟨"b", "1", "x"⟩]
  containers := []

/-- The chain `a → b → c → e` (each the only child of the next, `e` a root), `a` tagged `r:t`,
and a second child `f` of `e`; a stopped container of `f`. -/
def exChain : Daemon where
  graph := [⟨"a", "b"⟩, ⟨"b", "c"⟩, ⟨"c", "e"⟩, ⟨"e", ""⟩, ⟨"f", "e"⟩]
  repositories := [⟨"r", "t", "a"⟩, ⟨"s", "u", "f"⟩]
  containers := [⟨"c1", "f", false⟩]

/-- The chain `a → b → c` with `a` tagged `r:t` and a running container of `b`. -/
def exBlocked : Daemon where
  graph := [⟨"a", "b"⟩, ⟨"b", "c"⟩, ⟨"c", ""⟩]
  repositories := [⟨"r", "t", "a"⟩]
  containers := [⟨"c1", "b", true⟩]

/-- The state `exBlocked` after `a` has been untagged and deleted. -/
def exBlockedAfter : Daemon where
  graph := [⟨"b", "c"⟩, ⟨"c", ""⟩]
  repositories := []
  containers := [⟨"c1", "b", true⟩]

/-- The chain `a → b → c` with `a` tagged `r:t` and a running container of `c`. -/
def exDeep : Daemon where
  graph := [⟨"a", "b"⟩, ⟨"b", "c"⟩, ⟨"c", ""⟩]
  repositories := [⟨"r", "t", "a"⟩]
  containers := [⟨"c1", "c", true⟩]

/-- Four pushes that fail in different ways, then a 204. -/
def exPush (i : Nat) : PushOutcome :=
  if i = 0 then .transportError "refused" else if i = 1 then .response 500 "boom"
  else if i = 2 then .response 200 "ok" else if i = 3 then .requestError "bad url"
  else .response 204 ""

/-- A rank for the store of `exChain`. -/
def exRank (id : String) : Nat :=
  if id = "a" then 3 else if id = "b" then 2 else if id = "c" then 1
  else if id = "f" then 1 else 0

/-! ## Store lemmas -/

theorem Graph.Get_mem {g : List Image} {id : String} {p : Image} (h : Graph.Get g id = some p) :
    p ∈ g := List.mem_of_find?_eq_some h

theorem Graph.Get_id {g : List Image} {id : String} {p : Image} (h : Graph.Get g id = some p) :
    p.ID = id := by
  have := List.find?_some h
  simpa using this

theorem Graph.Get_isSome_of_mem {g : List Image} {p : Image} (h : p ∈ g) :
    ∃ q, Graph.Get g p.ID = some q := by
  cases hq : Graph.Get g p.ID with
  | some q => exact ⟨q, rfl⟩
  | none =>
    unfold Graph.Get at hq
    rw [List.find?_eq_none] at hq
    have := hq p h
    simp at this

theorem Graph.mem_Delete {g : List Image} {id : String} {p : Image} :
    p ∈ Graph.Delete g id ↔ p ∈ g ∧ p.ID ≠ id := by
  simp [Graph.Delete]

theorem Graph.Delete_length_lt {g : List Image} {id : String} {p : Image} (hp : p ∈ g)
    (hid : p.ID = id) : (Graph.Delete g id).length < g.length := by
  unfold Graph.Delete
  induction g with
  | nil => cases hp
  | cons a t ih =>
    by_cases ha : a.ID = id
    · have : (List.filter (fun i => decide (i.ID ≠ id)) (a :: t)) =
          List.filter (fun i => decide (i.ID ≠ id)) t := by
        simp [List.filter, ha]
      rw [this]
      exact Nat.lt_succ_of_le (List.length_filter_le _ _)
    · have hpt : p ∈ t := by
        rcases List.mem_cons.1 hp with h | h
        · exact absurd (h ▸ hid) ha
        · exact h
      have : (List.filter (fun i => decide (i.ID ≠ id)) (a :: t)) =
          a :: List.filter (fun i => decide (i.ID ≠ id)) t := by
        simp [List.filter, ha]
      rw [this]
      simpa using ih hpt

/-- Fetching an id other than the deleted one is not affected by the deletion. -/
theorem Graph.Get_Delete_of_ne {g : List Image} {id k : String} (h : k ≠ id) :
    Graph.Get (Graph.Delete g id) k = Graph.Get g k := by
  unfold Graph.Get Graph.Delete
  rw [List.find?_filter]
  congr 1
  funext a
  by_cases hk : a.ID = k
  · have ha : a.ID ≠ id := fun e => h (hk ▸ e)
    simp [hk, ha, h]
  · simp [hk]

theorem Graph.Get_Delete_self {g : List Image} {id : String} :
    Graph.Get (Graph.Delete g id) id = none := by
  unfold Graph.Get
  rw [List.find?_eq_none]
  intro x hx
  have := (Graph.mem_Delete.1 hx).2
  simpa using this

theorem Graph.Get_of_Get_Delete {g : List Image} {id k : String} {p : Image}
    (h : Graph.Get (Graph.Delete g id) k = some p) : Graph.Get g k = some p := by
  by_cases hk : k = id
  · subst hk
    rw [Graph.Get_Delete_self] at h
    cases h
  · rwa [Graph.Get_Delete_of_ne hk] at h

theorem LookupImage_mem {N : Names} {d : Daemon} {name : String} {img : Image}
    (h : LookupImage N d name = some img) : img ∈ d.graph := by
  unfold LookupImage at h
  simp only at h
  split at h
  · exact Graph.Get_mem h
  · exact Graph.Get_mem h

theorem Acyclic_Delete {g : List Image} (id : String) (h : Acyclic g) :
    Acyclic (Graph.Delete g id) := by
  obtain ⟨rank, hr⟩ := h
  exact ⟨rank, fun img hi p hp => hr img (Graph.mem_Delete.1 hi).1 p (Graph.mem_Delete.1 hp).1⟩

theorem ParentClosed_Delete {g : List Image} {id : String} (h : ParentClosed g)
    (hc : Graph.ByParent g id = []) : ParentClosed (Graph.Delete g id) := by
  intro img hi hne
  obtain ⟨hig, _⟩ := Graph.mem_Delete.1 hi
  obtain ⟨p, hp, hpid⟩ := h img hig hne
  refine ⟨p, Graph.mem_Delete.2 ⟨hp, ?_⟩, hpid⟩
  intro hpe
  have : img ∈ Graph.ByParent g id := by
    unfold Graph.ByParent
    simp [List.mem_filter, hig, hne, ← hpe, hpid]
  rw [hc] at this
  cases this

/-! ## History walks end in an acyclic store -/

theorem history_mem {g : List Image} :
    ∀ (fuel : Nat) (img : Image), img ∈ g → ∀ x ∈ history g fuel img, x ∈ g := by
  intro fuel
  induction fuel with
  | zero => intro img _ x hx; simp [history] at hx
  | succ n ih =>
    intro img hi x hx
    simp only [history, List.mem_cons] at hx
    rcases hx with rfl | hx
    · exact hi
    · split at hx
      · cases hx
      · split at hx
        · cases hx
        · next p hp => exact ih p (Graph.Get_mem hp) x hx

theorem history_rank_le {g : List Image} {rank : String → Nat}
    (hr : ∀ img ∈ g, ∀ p ∈ g, img.Parent ≠ "" → p.ID = img.Parent → rank p.ID < rank img.ID) :
    ∀ (fuel : Nat) (img : Image), img ∈ g → ∀ x ∈ history g fuel img,
      rank x.ID ≤ rank img.ID := by
  intro fuel
  induction fuel with
  | zero => intro img _ x hx; simp [history] at hx
  | succ n ih =>
    intro img hi x hx
    simp only [history, List.mem_cons] at hx
    rcases hx with rfl | hx
    · exact le_rfl
    · split at hx
      · cases hx
      · next hne =>
        split at hx
        · cases hx
        · next p hp =>
          have h1 := ih p (Graph.Get_mem hp) x hx
          have h2 := hr img hi p (Graph.Get_mem hp) hne (Graph.Get_id hp)
          omega

theorem history_nodup {g : List Image} {rank : String → Nat}
    (hr : ∀ img ∈ g, ∀ p ∈ g, img.Parent ≠ "" → p.ID = img.Parent → rank p.ID < rank img.ID) :
    ∀ (fuel : Nat) (img : Image), img ∈ g → (history g fuel img).Nodup := by
  intro fuel
  induction fuel with
  | zero => intro img _; simp [history]
  | succ n ih =>
    intro img hi
    simp only [history]
    split
    · simp
    · next hne =>
      split
      · simp
      · next p hp =>
        refine List.nodup_cons.2 ⟨?_, ih p (Graph.Get_mem hp)⟩
        intro hmem
        have h1 := history_rank_le hr n p (Graph.Get_mem hp) img hmem
        have h2 := hr img hi p (Graph.Get_mem hp) hne (Graph.Get_id hp)
        omega

theorem history_length_of_walk_none {g : List Image} {handler : Image → Option DeleteError} :
    ∀ (fuel : Nat) (img : Image), WalkHistory g handler fuel img = none →
      (history g fuel img).length = fuel := by
  intro fuel
  induction fuel with
  | zero => intro img _; simp [history]
  | succ n ih =>
    intro img h
    simp only [WalkHistory] at h
    split at h
    · cases h
    · split at h
      · cases h
      · next hne =>
        split at h
        · cases h
        · next p hp =>
          simp [history, hne, hp, ih p h]

/-- In an acyclic store a history walk from a stored image ends within as many steps as the
store has nodes (one more is given). -/
theorem WalkHistory_ends {g : List Image} (hac : Acyclic g)
    (handler : Image → Option DeleteError) {img : Image} (hi : img ∈ g) :
    ∃ r, WalkHistory g handler (g.length + 1) img = some r := by
  cases hw : WalkHistory g handler (g.length + 1) img with
  | some r => exact ⟨r, rfl⟩
  | none =>
    exfalso
    obtain ⟨rank, hr⟩ := hac
    have hlen := history_length_of_walk_none _ _ hw
    have hnd := history_nodup hr (g.length + 1) img hi
    have hsub : history g (g.length + 1) img ⊆ g := fun x hx => history_mem _ _ hi x hx
    have := (List.subperm_of_subset hnd hsub).length_le
    omega

/-! ## One invocation of `DeleteImage` -/

theorem TagStore.Delete_subset (idx : List Binding) (r t : String) :
    ∀ b ∈ (TagStore.Delete idx r t).2, b ∈ idx := by
  intro b hb
  unfold TagStore.Delete at hb
  split at hb
  · exact (List.mem_filter.1 hb).1
  · exact hb

theorem untagLoop_spec (N : Names) (r : String) :
    ∀ (tags : List String) (idx : List Binding) (imgs : List Effect),
      (∃ us, (untagLoop N r tags idx imgs).2 = imgs ++ us ∧
        ∀ e ∈ us, ∃ ref, e = Effect.Untagged ref) ∧
      (∀ b ∈ (untagLoop N r tags idx imgs).1, b ∈ idx) := by
  intro tags
  induction tags with
  | nil =>
    intro idx imgs
    exact ⟨⟨[], by simp [untagLoop], fun e he => by cases he⟩,
      fun b hb => by simpa [untagLoop] using hb⟩
  | cons t rest ih =>
    intro idx imgs
    simp only [untagLoop]
    obtain ⟨⟨us, hus, hun⟩, hsub⟩ := ih (TagStore.Delete idx r t).2
      (if (TagStore.Delete idx r t).1 then imgs ++ [.Untagged (N.ImageReference r t)] else imgs)
    refine ⟨?_, fun b hb => TagStore.Delete_subset idx r t b (hsub b hb)⟩
    rw [hus]
    split
    · refine ⟨[.Untagged (N.ImageReference r t)] ++ us, by simp, ?_⟩
      intro e he
      rcases List.mem_append.1 he with h1 | h1
      · rw [List.mem_singleton] at h1
        exact ⟨_, h1⟩
      · exact hun e h1
    · exact ⟨us, rfl, hun⟩

/-- What a frame that reaches the recursive call has done. -/
theorem DeleteImageBody_prune {N : Names} {d : Daemon} {imgs : List Effect} {name : String}
    {first force noprune : Bool} {d1 : Daemon} {imgs1 : List Effect} {p : String}
    (h : DeleteImageBody N d imgs name first force noprune = some (.prune d1 imgs1 p)) :
    ∃ img us, LookupImage N d name = some img ∧ Graph.ByParent d.graph img.ID = [] ∧
      p = img.Parent ∧ img.Parent ≠ "" ∧ noprune = false ∧
      d1.graph = Graph.Delete d.graph img.ID ∧ d1.containers = d.containers ∧
      imgs1 = imgs ++ us ++ [.Deleted img.ID] ∧
      (∀ b ∈ d1.repositories, b ∈ d.repositories ∧ b.id ≠ img.ID) ∧
      (∀ e ∈ us, ∃ ref, e = Effect.Untagged ref) := by
  unfold DeleteImageBody at h
  simp only at h
  split at h
  · cases h
  · split at h
    · split at h <;> cases h
    · next img hl =>
      split at h
      · cases h
      · next repoName tags hc =>
        split at h
        · cases h
        · split at h
          · cases h
          · cases h
          · next hcan =>
            split at h
            · split at h
              · split at h
                · next hch hpar =>
                  simp only [Option.some.injEq, Frame.prune.injEq] at h
                  obtain ⟨hd, hi, hp⟩ := h
                  obtain ⟨⟨us, hus, hun⟩, hsub⟩ :=
                    untagLoop_spec N repoName tags d.repositories imgs
                  refine ⟨img, us, hl, List.eq_nil_of_length_eq_zero hch, hp.symm, hpar.1,
                    hpar.2, ?_, ?_, ?_, ?_, hun⟩
                  · rw [← hd]
                  · rw [← hd]
                  · rw [← hi, hus]
                  · intro b hb
                    rw [← hd] at hb
                    simp only [TagStore.DeleteAll, List.mem_filter, decide_eq_true_eq] at hb
                    exact ⟨hsub b hb.1, hb.2⟩
                · cases h
              · cases h
            · cases h

/-- What a frame that returns has done. -/
theorem DeleteImageBody_done {N : Names} {d : Daemon} {imgs : List Effect} {name : String}
    {first force noprune : Bool} {o : Outcome}
    (h : DeleteImageBody N d imgs name first force noprune = some (.done o)) :
    o.daemon.containers = d.containers ∧ (∃ us, o.imgs = imgs ++ us) ∧
      (∀ b ∈ o.daemon.repositories, b ∈ d.repositories) ∧
      (o.daemon.graph = d.graph ∨
        ∃ img, LookupImage N d name = some img ∧ Graph.ByParent d.graph img.ID = [] ∧
          o.daemon.graph = Graph.Delete d.graph img.ID) := by
  have triv : ∀ e, o = ⟨d, imgs, e⟩ →
      o.daemon.containers = d.containers ∧ (∃ us, o.imgs = imgs ++ us) ∧
      (∀ b ∈ o.daemon.repositories, b ∈ d.repositories) ∧
      (o.daemon.graph = d.graph ∨
        ∃ img, LookupImage N d name = some img ∧ Graph.ByParent d.graph img.ID = [] ∧
          o.daemon.graph = Graph.Delete d.graph img.ID) := by
    intro e he
    subst he
    exact ⟨rfl, ⟨[], by simp⟩, fun b hb => hb, Or.inl rfl⟩
  unfold DeleteImageBody at h
  simp only at h
  split at h
  · simp only [Option.some.injEq, Frame.done.injEq] at h
    exact triv _ h.symm
  · split at h
    · split at h <;>
        (simp only [Option.some.injEq, Frame.done.injEq] at h; exact triv _ h.symm)
    · next img hl =>
      split at h
      · simp only [Option.some.injEq, Frame.done.injEq] at h
        exact triv _ h.symm
      · next repoName tags hc =>
        split at h
        · simp only [Option.some.injEq, Frame.done.injEq] at h
          exact triv _ h.symm
        · split at h
          · cases h
          · simp only [Option.some.injEq, Frame.done.injEq] at h
            exact triv _ h.symm
          · next hcan =>
            obtain ⟨⟨us, hus, _⟩, hsub⟩ := untagLoop_spec N repoName tags d.repositories imgs
            split at h
            · split at h
              · split at h
                · cases h
                · next hch hpar =>
                  simp only [Option.some.injEq, Frame.done.injEq] at h
                  subst h
                  refine ⟨rfl, ⟨us ++ [.Deleted img.ID], ?_⟩, ?_, Or.inr ⟨img, hl,
                    List.eq_nil_of_length_eq_zero hch, rfl⟩⟩
                  · simp only [hus, List.append_assoc]
                  · intro b hb
                    simp only [TagStore.DeleteAll, List.mem_filter] at hb
                    exact hsub b hb.1
              · simp only [Option.some.injEq, Frame.done.injEq] at h
                subst h
                exact ⟨rfl, ⟨us, hus⟩, hsub, Or.inl rfl⟩
            · simp only [Option.some.injEq, Frame.done.injEq] at h
              subst h
              exact ⟨rfl, ⟨us, hus⟩, hsub, Or.inl rfl⟩

theorem canDeleteLoop_some {N : Names} {d : Daemon} (hac : Acyclic d.graph) (imgID : String)
    (force : Bool) : ∀ cs : List Container, ∃ r, canDeleteLoop N d imgID force cs = some r := by
  intro cs
  induction cs with
  | nil => exact ⟨none, rfl⟩
  | cons c rest ih =>
    simp only [canDeleteLoop]
    cases hl : LookupImage N d c.ImageID with
    | none => exact ⟨none, rfl⟩
    | some parent =>
      obtain ⟨r, hr⟩ := WalkHistory_ends hac (canDeleteHandler imgID force c) (LookupImage_mem hl)
      simp only [hr]
      cases r with
      | some e => exact ⟨some e, rfl⟩
      | none => exact ih

theorem DeleteImageBody_some {N : Names} {d : Daemon} (hac : Acyclic d.graph)
    (imgs : List Effect) (name : String) (first force noprune : Bool) :
    ∃ fr, DeleteImageBody N d imgs name first force noprune = some fr := by
  cases hb : DeleteImageBody N d imgs name first force noprune with
  | some fr => exact ⟨fr, rfl⟩
  | none =>
    exfalso
    unfold DeleteImageBody at hb
    simp only at hb
    split at hb
    · cases hb
    · split at hb
      · split at hb <;> cases hb
      · next img hl =>
        split at hb
        · cases hb
        · split at hb
          · cases hb
          · split at hb
            · next hcan =>
              split at hcan
              · obtain ⟨r, hr⟩ := canDeleteLoop_some (N := N) hac img.ID force d.containers
                unfold canDeleteImage at hcan
                rw [hr] at hcan
                cases hcan
              · cases hcan
            · cases hb
            · split at hb
              · split at hb
                · split at hb <;> cases hb
                · cases hb
              · cases hb

/-! ## The recursion -/

theorem DeleteImageBody_prune_length {N : Names} {d : Daemon} {imgs : List Effect}
    {name : String} {first force noprune : Bool} {d1 : Daemon} {imgs1 : List Effect}
    {p : String}
    (h : DeleteImageBody N d imgs name first force noprune = some (.prune d1 imgs1 p)) :
    d1.graph.length < d.graph.length := by
  obtain ⟨img, us, hl, _, _, _, _, hg, _⟩ := DeleteImageBody_prune h
  rw [hg]
  exact Graph.Delete_length_lt (LookupImage_mem hl) rfl

/-- The result does not depend on the bound once it exceeds the number of stored nodes. -/
theorem DeleteImageFuel_bound (N : Names) :
    ∀ (f f2 : Nat) (d : Daemon) (imgs : List Effect) (name : String)
      (first force noprune : Bool), d.graph.length < f → d.graph.length < f2 →
      DeleteImageFuel N f d imgs name first force noprune =
        DeleteImageFuel N f2 d imgs name first force noprune := by
  intro f
  induction f with
  | zero => intro f2 d imgs name first force noprune h; omega
  | succ n ih =>
    intro f2 d imgs name first force noprune h1 h2
    cases f2 with
    | zero => omega
    | succ m =>
      simp only [DeleteImageFuel]
      cases hb : DeleteImageBody N d imgs name first force noprune with
      | none => rfl
      | some fr =>
        cases fr with
        | done o => rfl
        | prune d1 imgs1 p =>
          have hlt := DeleteImageBody_prune_length hb
          simp only
          rw [ih m d1 imgs1 p false force noprune (by omega) (by omega)]

/-- Unfolding `DeleteImage` once: the nested call is again a `DeleteImage`. -/
theorem DeleteImage_unfold (N : Names) (d : Daemon) (imgs : List Effect) (name : String)
    (first force noprune : Bool) :
    DeleteImage N d imgs name first force noprune =
      match DeleteImageBody N d imgs name first force noprune with
      | none => none
      | some (.done o) => some o
      | some (.prune d1 imgs1 parent) =>
        match DeleteImage N d1 imgs1 parent false force noprune with
        | none => none
        | some o => some (if first then o else { o with err := none }) := by
  conv_lhs => unfold DeleteImage; simp only [DeleteImageFuel]
  cases hb : DeleteImageBody N d imgs name first force noprune with
  | none => rfl
  | some fr =>
    cases fr with
    | done o => rfl
    | prune d1 imgs1 p =>
      have hlt := DeleteImageBody_prune_length hb
      simp only
      rw [DeleteImageFuel_bound N d.graph.length (d1.graph.length + 1) d1 imgs1 p false force
        noprune (by omega) (by omega)]
      rfl

/-- In an acyclic store `DeleteImage` returns. -/
theorem DeleteImage_returns (N : Names) :
    ∀ (n : Nat) (d : Daemon), d.graph.length = n → Acyclic d.graph →
      ∀ (imgs : List Effect) (name : String) (first force noprune : Bool),
        ∃ o, DeleteImage N d imgs name first force noprune = some o := by
  intro n
  induction n using Nat.strong_induction_on with
  | _ n ih =>
    intro d hn hac imgs name first force noprune
    rw [DeleteImage_unfold]
    obtain ⟨fr, hfr⟩ := DeleteImageBody_some (N := N) hac imgs name first force noprune
    rw [hfr]
    cases fr with
    | done o => exact ⟨o, rfl⟩
    | prune d1 imgs1 p =>
      have hlt := DeleteImageBody_prune_length hfr
      obtain ⟨img, us, hl, _, _, _, _, hg, _⟩ := DeleteImageBody_prune hfr
      have hac1 : Acyclic d1.graph := by rw [hg]; exact Acyclic_Delete _ hac
      obtain ⟨o, ho⟩ := ih d1.graph.length (by omega) d1 rfl hac1 imgs1 p false force noprune
      simp only [ho]
      exact ⟨_, rfl⟩

/-- The facts that hold of every run of `DeleteImage`, whatever it returns: containers are
untouched, rows are only added at the end of the table, bindings and nodes are only removed,
and a parent-closed store stays parent-closed. -/
theorem DeleteImage_frame (N : Names) :
    ∀ (n : Nat) (d : Daemon), d.graph.length = n →
      ∀ (imgs : List Effect) (name : String) (first force noprune : Bool) (o : Outcome),
        DeleteImage N d imgs name first force noprune = some o →
        o.daemon.containers = d.containers ∧ (∃ us, o.imgs = imgs ++ us) ∧
        (∀ b ∈ o.daemon.repositories, b ∈ d.repositories) ∧
        (∀ i ∈ o.daemon.graph, i ∈ d.graph) ∧
        (ParentClosed d.graph → ParentClosed o.daemon.graph) := by
  intro n
  induction n using Nat.strong_induction_on with
  | _ n ih =>
    intro d hn imgs name first force noprune o h
    rw [DeleteImage_unfold] at h
    cases hfr : DeleteImageBody N d imgs name first force noprune with
    | none => rw [hfr] at h; cases h
    | some fr =>
      rw [hfr] at h
      cases fr with
      | done o1 =>
        simp only [Option.some.injEq] at h
        subst h
        obtain ⟨hc, hus, hb, hg⟩ := DeleteImageBody_done hfr
        refine ⟨hc, hus, hb, ?_, ?_⟩
        · rcases hg with hg | ⟨img, _, _, hg⟩
          · rw [hg]; exact fun i hi => hi
          · rw [hg]; exact fun i hi => (Graph.mem_Delete.1 hi).1
        · intro hpc
          rcases hg with hg | ⟨img, _, hch, hg⟩
          · rw [hg]; exact hpc
          · rw [hg]; exact ParentClosed_Delete hpc hch
      | prune d1 imgs1 p =>
        have hlt := DeleteImageBody_prune_length hfr
        obtain ⟨img, us, hl, hch, _, _, _, hg, hc, hi, hb, _⟩ := DeleteImageBody_prune hfr
        simp only at h
        cases ho : DeleteImage N d1 imgs1 p false force noprune with
        | none => rw [ho] at h; cases h
        | some o1 =>
          rw [ho] at h
          simp only [Option.some.injEq] at h
          obtain ⟨hc1, ⟨us1, hus1⟩, hb1, hg1, hpc1⟩ :=
            ih d1.graph.length (by omega) d1 rfl imgs1 p false force noprune o1 ho
          have key : o.daemon = o1.daemon ∧ o.imgs = o1.imgs := by
            subst h
            cases first <;> simp
          rw [key.1, key.2]
          refine ⟨hc1.trans hc, ⟨us ++ [.Deleted img.ID] ++ us1, ?_⟩,
            fun b hb2 => (hb b (hb1 b hb2)).1, ?_, ?_⟩
          · rw [hus1, hi]; simp
          · intro i hi2
            have := hg1 i hi2
            rw [hg] at this
            exact (Graph.mem_Delete.1 this).1
          · intro hpc
            apply hpc1
            rw [hg]
            exact ParentClosed_Delete hpc hch

/-! ## The in-use check -/

theorem canDeleteHandler_conflict {imgID : String} {force : Bool} {c : Container} {p : Image}
    {e : DeleteError} (h : canDeleteHandler imgID force c p = some e) : e.isConflict = true := by
  unfold canDeleteHandler at h
  split at h
  · split at h
    · split at h <;> (simp only [Option.some.injEq] at h; subst h; rfl)
    · split at h
      · simp only [Option.some.injEq] at h; subst h; rfl
      · cases h
  · cases h

theorem canDeleteHandler_of_ne {imgID : String} {force : Bool} {c : Container} {p : Image}
    (h : p.ID ≠ imgID) : canDeleteHandler imgID force c p = none := by
  unfold canDeleteHandler
  rw [if_neg (fun e => h e.symm)]

theorem canDeleteHandler_running (force : Bool) {imgID : String} {c : Container} {p : Image}
    (h : p.ID = imgID) (hr : c.Running = true) :
    ∃ e, canDeleteHandler imgID force c p = some e := by
  unfold canDeleteHandler
  rw [if_pos h.symm, if_pos hr]
  cases force
  · exact ⟨_, rfl⟩
  · exact ⟨_, rfl⟩

/-- A walk in a parent-closed store ends, if it ends, with success or with a handler error. -/
theorem WalkHistory_result {g : List Image} (hpc : ParentClosed g)
    {handler : Image → Option DeleteError} :
    ∀ (fuel : Nat) (img : Image), img ∈ g → ∀ r, WalkHistory g handler fuel img = some r →
      r = none ∨ ∃ e x, r = some e ∧ x ∈ history g fuel img ∧ handler x = some e := by
  intro fuel
  induction fuel with
  | zero => intro img _ r h; simp [WalkHistory] at h
  | succ n ih =>
    intro img hi r h
    simp only [WalkHistory] at h
    split at h
    · next e he =>
      simp only [Option.some.injEq] at h
      subst h
      exact Or.inr ⟨e, img, rfl, by simp [history], he⟩
    · split at h
      · simp only [Option.some.injEq] at h
        exact Or.inl h.symm
      · next hne =>
        split at h
        · next hg =>
          exfalso
          obtain ⟨p, hp, hpid⟩ := hpc img hi hne
          obtain ⟨q, hq⟩ := Graph.Get_isSome_of_mem hp
          rw [hpid, hg] at hq
          cases hq
        · next p hp =>
          rcases ih p (Graph.Get_mem hp) r h with h1 | ⟨e, x, h1, h2, h3⟩
          · exact Or.inl h1
          · refine Or.inr ⟨e, x, h1, ?_, h3⟩
            simp only [history, hne, hp, if_false, List.mem_cons]
            exact Or.inr h2

/-- A walk that meets an image the handler rejects ends with a handler error. -/
theorem WalkHistory_hit {g : List Image} (handler : Image → Option DeleteError) :
    ∀ (fuel : Nat) (img : Image), (∃ x ∈ history g fuel img, handler x ≠ none) →
      ∃ e x, WalkHistory g handler fuel img = some (some e) ∧ handler x = some e := by
  intro fuel
  induction fuel with
  | zero => intro img h; obtain ⟨x, hx, _⟩ := h; simp [history] at hx
  | succ n ih =>
    intro img h
    obtain ⟨x, hx, hne⟩ := h
    simp only [WalkHistory]
    cases hh : handler img with
    | some e => exact ⟨e, img, rfl, hh⟩
    | none =>
      simp only [history, List.mem_cons] at hx
      rcases hx with rfl | hx
      · exact absurd hh hne
      · split at hx
        · cases hx
        · next hp =>
          split at hx
          · cases hx
          · next p hg =>
            simp only [hp, if_false, hg]
            exact ih p ⟨x, hx, hne⟩

/-- No container reaches the image: the check passes. -/
theorem canDeleteLoop_free {N : Names} {d : Daemon} (hpc : ParentClosed d.graph)
    (hac : Acyclic d.graph) (imgID : String) (force : Bool) :
    ∀ cs : List Container,
      (∀ c ∈ cs, ∀ ci, LookupImage N d c.ImageID = some ci →
        ∀ x ∈ ancestry d ci, x.ID ≠ imgID) →
      canDeleteLoop N d imgID force cs = some none := by
  intro cs
  induction cs with
  | nil => intro _; rfl
  | cons c rest ih =>
    intro h
    simp only [canDeleteLoop]
    cases hl : LookupImage N d c.ImageID with
    | none => rfl
    | some ci =>
      obtain ⟨r, hr⟩ := WalkHistory_ends hac (canDeleteHandler imgID force c) (LookupImage_mem hl)
      simp only [hr]
      rcases WalkHistory_result hpc _ _ (LookupImage_mem hl) r hr with h1 | ⟨e, x, _, hx, he⟩
      · subst h1
        exact ih (fun c2 hc2 => h c2 (List.mem_cons_of_mem _ hc2))
      · exfalso
        have := h c (List.mem_cons_self _ _) ci hl x hx
        rw [canDeleteHandler_of_ne this] at he
        cases he

/-- A running container that reaches the image, listed after containers whose images all
resolve: the check fails with a conflict. -/
theorem canDeleteLoop_blocked {N : Names} {d : Daemon} (hpc : ParentClosed d.graph)
    (hac : Acyclic d.graph) (imgID : String) (force : Bool) (c : Container) (ci : Image)
    (post : List Container) (hrun : c.Running = true)
    (hci : LookupImage N d c.ImageID = some ci)
    (hanc : ∃ x ∈ ancestry d ci, x.ID = imgID) :
    ∀ pre : List Container, (∀ c2 ∈ pre, (LookupImage N d c2.ImageID).isSome = true) →
      ∃ e, canDeleteLoop N d imgID force (pre ++ c :: post) = some (some e) ∧
        e.isConflict = true := by
  intro pre
  induction pre with
  | nil =>
    intro _
    simp only [List.nil_append, canDeleteLoop, hci]
    obtain ⟨x, hx, hxid⟩ := hanc
    obtain ⟨e0, he0⟩ := canDeleteHandler_running force hxid hrun
    obtain ⟨e, y, hw, hy⟩ := WalkHistory_hit (canDeleteHandler imgID force c)
      (d.graph.length + 1) ci ⟨x, hx, by rw [he0]; simp⟩
    rw [hw]
    exact ⟨e, rfl, canDeleteHandler_conflict hy⟩
  | cons c2 rest ih =>
    intro h
    simp only [List.cons_append, canDeleteLoop]
    have h2 := h c2 (List.mem_cons_self _ _)
    cases hl : LookupImage N d c2.ImageID with
    | none => rw [hl] at h2; cases h2
    | some ci2 =>
      obtain ⟨r, hr⟩ := WalkHistory_ends hac (canDeleteHandler imgID force c2)
        (LookupImage_mem hl)
      simp only [hr]
      rcases WalkHistory_result hpc _ _ (LookupImage_mem hl) r hr with h1 | ⟨e, x, h1, _, he⟩
      · subst h1
        exact ih (fun c3 hc3 => h c3 (List.mem_cons_of_mem _ hc3))
      · subst h1
        exact ⟨e, rfl, canDeleteHandler_conflict he⟩

theorem collectTags_conflict {N : Names} {name : String} {force first : Bool} :
    ∀ (refs : List String) (repoName : String) (tags : List String) (e : DeleteError),
      collectTags N name force first refs repoName tags = .error e → e.isConflict = true := by
  intro refs
  induction refs with
  | nil => intro repoName tags e h; simp [collectTags] at h
  | cons r rest ih =>
    intro repoName tags e h
    simp only [collectTags] at h
    split at h
    · exact ih _ _ _ h
    · split at h
      · simp only [Except.error.injEq] at h
        subst h
        rfl
      · exact ih _ _ _ h

theorem TagStore.ByID_length (N : Names) (idx : List Binding) (id : String) :
    (TagStore.ByID N idx id).length = (bindingsOf idx id).length := by
  simp [TagStore.ByID, bindingsOf]

/-! ## C1 -/

/-- C1 (amended). A top-level `DeleteImage` whose resolved image has at most one binding and
occurs in the image ancestry of a running container, in a parent-closed acyclic store where
every container listed before that one resolves to a stored image, fails with a conflict error
for every `force` and `noprune`, and leaves the state (so the image node) and the table as
they were. -/
theorem DeleteImage_running_container_blocks (N : Names) (d : Daemon) (imgs : List Effect)
    (name : String) (force noprune : Bool) (img : Image) (c : Container) (ci : Image)
    (pre post : List Container)
    (hname : name ≠ "") (hl : LookupImage N d name = some img)
    (hb : (bindingsOf d.repositories img.ID).length ≤ 1)
    (hpc : ParentClosed d.graph) (hac : Acyclic d.graph)
    (hcs : d.containers = pre ++ c :: post)
    (hpre : ∀ c2 ∈ pre, (LookupImage N d c2.ImageID).isSome = true)
    (hrun : c.Running = true) (hci : LookupImage N d c.ImageID = some ci)
    (hanc : ∃ x ∈ ancestry d ci, x.ID = img.ID) :
    img ∈ d.graph ∧
    ∃ e, e.isConflict = true ∧
      DeleteImage N d imgs name true force noprune = some ⟨d, imgs, some e⟩ := by
  refine ⟨LookupImage_mem hl, ?_⟩
  obtain ⟨e, he, hec⟩ := canDeleteLoop_blocked hpc hac img.ID force c ci post hrun hci hanc
    pre hpre
  have hcan : canDeleteImage N d img.ID force = some (some e) := by
    unfold canDeleteImage
    rw [hcs]
    exact he
  have hlen : (TagStore.ByID N d.repositories img.ID).length ≤ 1 := by
    rw [TagStore.ByID_length]; exact hb
  have hbody : ∃ e2, e2.isConflict = true ∧
      DeleteImageBody N d imgs name true force noprune = some (.done ⟨d, imgs, some e2⟩) := by
    unfold DeleteImageBody
    simp only [hname, if_false, hl]
    split
    · next e2 hc =>
      refine ⟨e2, ?_, rfl⟩
      by_cases hr : (if strContains img.ID name = true then ""
          else (N.ParseRepositoryTag name).1) = ""
      · rw [if_pos hr] at hc
        exact collectTags_conflict _ _ _ _ hc
      · rw [if_neg hr] at hc
        cases hc
    · next repoName tags hc =>
      simp only [Bool.true_eq_false, false_and, if_false, hlen, if_true, hcan]
      exact ⟨e, hec, rfl⟩
  obtain ⟨e2, he2, hbody⟩ := hbody
  refine ⟨e2, he2, ?_⟩
  rw [DeleteImage_unfold, hbody]

/-- C1, witness: `exRunning`, deleting `x` by its tag `a:1` with `force`. -/
theorem DeleteImage_running_container_blocks_witness :
    (⟨"x", ""⟩ : Image) ∈ exRunning.graph ∧
    ∃ e, e.isConflict = true ∧
      DeleteImage stdNames exRunning [] "a:1" true true false = some ⟨exRunning, [], some e⟩ :=
  DeleteImage_running_container_blocks stdNames exRunning [] "a:1" true false ⟨"x", ""⟩
    ⟨"c1", "x", true⟩ ⟨"x", ""⟩ [⟨"c0", "y", false⟩] [] (by decide) (by decide) (by decide)
    (by decide) ⟨fun _ => 0, by decide⟩ rfl (by decide) rfl (by decide) (by decide)

/-- C1, counterexample. With two bindings on the image (`exTwoTags`) the in-use check is not
run and the image used by a running container is deleted; with one binding but an earlier
container whose image is gone (`exDangling`) the check returns early and the image is deleted
as well. -/
theorem DeleteImage_running_container_counterexample :
    (LookupImage stdNames exTwoTags "x" = some ⟨"x", ""⟩ ∧
      (⟨"c1", "x", true⟩ : Container) ∈ exTwoTags.containers ∧
      (⟨"x", ""⟩ : Image) ∈ ancestry exTwoTags ⟨"x", ""⟩ ∧
      DeleteImage stdNames exTwoTags [] "x" true false false =
        some ⟨{ exTwoTags with graph := [⟨"y", ""⟩], repositories := [] },
          [.Untagged "a:1", .Untagged "a:2", .Deleted "x"], none⟩) ∧
    (LookupImage stdNames exDangling "x" = some ⟨"x", ""⟩ ∧
      (⟨"c1", "x", true⟩ : Container) ∈ exDangling.containers ∧
      (⟨"x", ""⟩ : Image) ∈ ancestry exDangling ⟨"x", ""⟩ ∧
      DeleteImage stdNames exDangling [] "x" true true false =
        some ⟨{ exDangling with graph := [⟨"y", ""⟩], repositories := [] },
          [.Untagged "a:1", .Deleted "x"], none⟩) := by
  decide

/-! ## C10 -/

/-- C10. `DeleteImage` preserves parent-closedness of the store, for every name, `first`,
`force` and `noprune` and whatever it returns; every frame that removes a node removes one
without child images in the parent index; and in an acyclic store the call does return. -/
theorem DeleteImage_preserves_parentClosed (N : Names) (d : Daemon) (imgs : List Effect)
    (name : String) (first force noprune : Bool) (hpc : ParentClosed d.graph) :
    (∀ o, DeleteImage N d imgs name first force noprune = some o →
      ParentClosed o.daemon.graph) ∧
    (∀ d1 imgs1 p, DeleteImageBody N d imgs name first force noprune =
        some (.prune d1 imgs1 p) →
      ∃ img : Image, Graph.ByParent d.graph img.ID = [] ∧ d1.graph = Graph.Delete d.graph img.ID) ∧
    (∀ o, DeleteImageBody N d imgs name first force noprune = some (.done o) →
      o.daemon.graph = d.graph ∨
      ∃ img : Image, Graph.ByParent d.graph img.ID = [] ∧
        o.daemon.graph = Graph.Delete d.graph img.ID) ∧
    (Acyclic d.graph → ∃ o, DeleteImage N d imgs name first force noprune = some o ∧
      ParentClosed o.daemon.graph) := by
  have h1 : ∀ o, DeleteImage N d imgs name first force noprune = some o →
      ParentClosed o.daemon.graph := fun o ho =>
    (DeleteImage_frame N d.graph.length d rfl imgs name first force noprune o ho).2.2.2.2 hpc
  refine ⟨h1, ?_, ?_, ?_⟩
  · intro d1 imgs1 p h
    obtain ⟨img, _, _, hch, _, _, _, hg, _⟩ := DeleteImageBody_prune h
    exact ⟨img, hch, hg⟩
  · intro o h
    rcases (DeleteImageBody_done h).2.2.2 with hg | ⟨img, _, hch, hg⟩
    · exact Or.inl hg
    · exact Or.inr ⟨img, hch, hg⟩
  · intro hac
    obtain ⟨o, ho⟩ := DeleteImage_returns N d.graph.length d rfl hac imgs name first force
      noprune
    exact ⟨o, ho, h1 o ho⟩

/-- C10, witness: the chain store `exChain`, deleting `a` by its tag. -/
theorem DeleteImage_preserves_parentClosed_witness :
    (∀ o, DeleteImage stdNames exChain [] "r:t" true false false = some o →
      ParentClosed o.daemon.graph) ∧
    (∀ d1 imgs1 p, DeleteImageBody stdNames exChain [] "r:t" true false false =
        some (.prune d1 imgs1 p) →
      ∃ img : Image, Graph.ByParent exChain.graph img.ID = [] ∧
        d1.graph = Graph.Delete exChain.graph img.ID) ∧
    (∀ o, DeleteImageBody stdNames exChain [] "r:t" true false false = some (.done o) →
      o.daemon.graph = exChain.graph ∨
      ∃ img : Image, Graph.ByParent exChain.graph img.ID = [] ∧
        o.daemon.graph = Graph.Delete exChain.graph img.ID) ∧
    (Acyclic exChain.graph → ∃ o, DeleteImage stdNames exChain [] "r:t" true false false =
      some o ∧ ParentClosed o.daemon.graph) :=
  DeleteImage_preserves_parentClosed stdNames exChain [] "r:t" true false false (by decide)

/-! ## C5 and C6: an id bound in several repositories -/

theorem containsChars_nil (s : List Char) : containsChars s [] = true := by
  cases s <;> simp [containsChars, startsWith]

theorem collectTags_other {N : Names} {name : String} :
    ∀ (bs : List Binding) (r : String) (tags : List String), r ≠ "" →
      (∀ b ∈ bs, N.ParseRepositoryTag (N.ImageReference b.repo b.tag) = (b.repo, b.tag)) →
      (∃ b ∈ bs, b.repo ≠ r) →
      collectTags N name false true (bs.map (fun b => N.ImageReference b.repo b.tag)) r tags =
        .error (.multiRepoConflict name) := by
  intro bs
  induction bs with
  | nil => intro r tags _ _ h; obtain ⟨b, hb, _⟩ := h; cases hb
  | cons a t ih =>
    intro r tags hr hp h
    have hpa := hp a (List.mem_cons_self _ _)
    simp only [List.map_cons, collectTags, hpa, hr, false_or]
    by_cases hra : r = a.repo
    · rw [if_pos hra]
      obtain ⟨b, hb, hbr⟩ := h
      have hbt : b ∈ t := by
        rcases List.mem_cons.1 hb with rfl | hbt
        · exact absurd hra.symm hbr
        · exact hbt
      exact ih a.repo _ (hra ▸ hr) (fun b2 hb2 => hp b2 (List.mem_cons_of_mem _ hb2))
        ⟨b, hbt, hra ▸ hbr⟩
    · simp [hra]

theorem collectTags_multi {N : Names} {name : String} (bs : List Binding) (tags : List String)
    (hp : ∀ b ∈ bs, N.ParseRepositoryTag (N.ImageReference b.repo b.tag) = (b.repo, b.tag) ∧
      b.repo ≠ "")
    (h : ∃ b1 ∈ bs, ∃ b2 ∈ bs, b1.repo ≠ b2.repo) :
    collectTags N name false true (bs.map (fun b => N.ImageReference b.repo b.tag)) "" tags =
      .error (.multiRepoConflict name) := by
  cases bs with
  | nil => obtain ⟨b, hb, _⟩ := h; cases hb
  | cons a t =>
    have hpa := hp a (List.mem_cons_self _ _)
    simp only [List.map_cons, collectTags, hpa.1, true_or, if_true]
    apply collectTags_other t a.repo _ hpa.2
      (fun b hb => (hp b (List.mem_cons_of_mem _ hb)).1)
    obtain ⟨b1, hb1, b2, hb2, hne⟩ := h
    by_cases h1 : b1.repo = a.repo
    · have hb2t : b2 ∈ t := by
        rcases List.mem_cons.1 hb2 with rfl | hbt
        · exact absurd h1 hne
        · exact hbt
      exact ⟨b2, hb2t, fun e => hne (h1.trans e.symm)⟩
    · have hb1t : b1 ∈ t := by
        rcases List.mem_cons.1 hb1 with rfl | hbt
        · exact absurd rfl h1
        · exact hbt
      exact ⟨b1, hb1t, h1⟩

/-- C5. A top-level `DeleteImage` without `force` that names by id an image whose bindings lie
in at least two repositories fails with the multi-repository conflict, adds no row and leaves
index and store as they were. -/
theorem DeleteImage_multi_repo_conflict (N : Names) (d : Daemon) (imgs : List Effect)
    (name : String) (noprune : Bool) (img : Image)
    (hname : name ≠ "") (hl : LookupImage N d name = some img)
    (hid : strContains img.ID name = true)
    (hwf : RefsParse N d.repositories)
    (h2 : ∃ b1 ∈ bindingsOf d.repositories img.ID, ∃ b2 ∈ bindingsOf d.repositories img.ID,
      b1.repo ≠ b2.repo) :
    DeleteImage N d imgs name true false noprune =
      some ⟨d, imgs, some (.multiRepoConflict name)⟩ := by
  have hc : collectTags N name false true (TagStore.ByID N d.repositories img.ID) "" [] =
      .error (.multiRepoConflict name) := by
    apply collectTags_multi (bindingsOf d.repositories img.ID) [] _ h2
    intro b hb
    have := hwf b (List.mem_filter.1 hb).1
    exact ⟨this.1, this.2.2⟩
  have hbody : DeleteImageBody N d imgs name true false noprune =
      some (.done ⟨d, imgs, some (.multiRepoConflict name)⟩) := by
    unfold DeleteImageBody
    simp only [hname, if_false, hl, hid, if_true, hc]
  rw [DeleteImage_unfold, hbody]

/-- C5, witness: `exTwoRepos`, deleting `x` by id. -/
theorem DeleteImage_multi_repo_conflict_witness :
    DeleteImage stdNames exTwoRepos [] "x" true false false =
      some ⟨exTwoRepos, [], some (.multiRepoConflict "x")⟩ :=
  DeleteImage_multi_repo_conflict stdNames exTwoRepos [] "x" false ⟨"x", ""⟩ (by decide)
    (by decide) (by decide) (by decide) (by decide)

/-- C6, the code at the failing input. With `force`, deleting by id the image `x` of
`exTwoRepos` (bound as `a:1` and `b:1`) returns no error, untags only `a:1`, and leaves the
binding `b:1` and the image in place. -/
theorem DeleteImage_force_by_id_two_repos :
    strContains "x" "x" = true ∧
    bindingsOf exTwoRepos.repositories "x" = [⟨"a", "1", "x"⟩, ⟨"b", "1", "x"⟩] ∧
    DeleteImage stdNames exTwoRepos [] "x" true true false =
      some ⟨{ exTwoRepos with repositories := [⟨"b", "1", "x"⟩] }, [.Untagged "a:1"], none⟩ := by
  decide

/-! ## Index lemmas -/

theorem KeysUnique.eq_of_key {idx : List Binding} (h : KeysUnique idx) {b b2 : Binding}
    (hb : b ∈ idx) (hb2 : b2 ∈ idx) (hr : b2.repo = b.repo) (ht : b2.tag = b.tag) : b2 = b :=
  List.inj_on_of_nodup_map h hb2 hb (by simp [hr, ht])

theorem KeysUnique.find_key {idx : List Binding} (h : KeysUnique idx) {b : Binding}
    (hb : b ∈ idx) :
    idx.find? (fun b0 => decide (b0.repo = b.repo ∧ b0.tag = b.tag)) = some b := by
  cases hf : idx.find? (fun b0 => decide (b0.repo = b.repo ∧ b0.tag = b.tag)) with
  | none =>
    rw [List.find?_eq_none] at hf
    have := hf b hb
    simp at this
  | some b0 =>
    have h1 := List.find?_some hf
    simp only [decide_eq_true_eq] at h1
    rw [h.eq_of_key hb (List.mem_of_find?_eq_some hf) h1.1 h1.2]

theorem TagStore.Delete_key {idx : List Binding} (h : KeysUnique idx) {b : Binding}
    (hb : b ∈ idx) : TagStore.Delete idx b.repo b.tag = (true, idx.erase b) := by
  unfold TagStore.Delete
  have hany : idx.any (fun b0 => decide (b0.repo = b.repo ∧ b0.tag = b.tag)) = true := by
    rw [List.any_eq_true]
    exact ⟨b, hb, by simp⟩
  rw [if_pos hany, List.Nodup.erase_eq_filter (List.Nodup.of_map _ h)]
  congr 1
  apply List.filter_congr
  intro b0 hb0
  by_cases he : b0 = b
  · subst he; simp
  · have : ¬ (b0.repo = b.repo ∧ b0.tag = b.tag) := fun hk => he (h.eq_of_key hb hb0 hk.1 hk.2)
    simp [this, he]

theorem bindingsOf_erase {idx : List Binding} {b : Binding} {id : String} (hb : b ∈ idx)
    (hid : b.id = id) :
    (bindingsOf (idx.erase b) id).length + 1 = (bindingsOf idx id).length := by
  induction idx with
  | nil => cases hb
  | cons a t ih =>
    by_cases he : a = b
    · subst he
      simp [bindingsOf, List.filter, hid]
    · have hbt : b ∈ t := by
        rcases List.mem_cons.1 hb with rfl | hbt
        · exact absurd rfl he
        · exact hbt
      have ih2 := ih hbt
      have hne : (a == b) = false := by simpa using he
      simp only [bindingsOf, List.erase_cons, hne] at ih2 ⊢
      by_cases ha : a.id = id
      · simp only [List.filter, ha, decide_True, List.length_cons] at ih2 ⊢
        omega
      · simp only [List.filter, ha, decide_False] at ih2 ⊢
        exact ih2

/-! ## C4 -/

/-- C4. For an image with more than one binding, a top-level `DeleteImage` naming one of its
bindings `repo:tag` (not a substring of the image id) returns no error, adds the single row
`Untagged repo:tag`, erases exactly that binding from the index, so that the image keeps one
binding less, and leaves the store unchanged. -/
theorem DeleteImage_untags_one_binding (N : Names) (d : Daemon) (imgs : List Effect)
    (force noprune : Bool) (img : Image) (b : Binding)
    (hb : b ∈ d.repositories) (hbid : b.id = img.ID)
    (himg : Graph.Get d.graph img.ID = some img)
    (hku : KeysUnique d.repositories) (hwf : RefsParse N d.repositories)
    (hn : 1 < (bindingsOf d.repositories img.ID).length)
    (hsub : strContains img.ID (N.ImageReference b.repo b.tag) = false) :
    DeleteImage N d imgs (N.ImageReference b.repo b.tag) true force noprune =
      some ⟨{ d with repositories := d.repositories.erase b },
        imgs ++ [.Untagged (N.ImageReference b.repo b.tag)], none⟩ ∧
    (bindingsOf (d.repositories.erase b) img.ID).length + 1 =
      (bindingsOf d.repositories img.ID).length := by
  have hcount := bindingsOf_erase hb hbid
  refine ⟨?_, hcount⟩
  obtain ⟨hparse, htag, hrepo⟩ := hwf b hb
  have hname : N.ImageReference b.repo b.tag ≠ "" := by
    intro he
    rw [he] at hsub
    simp [strContains, containsChars_nil] at hsub
  have hl : LookupImage N d (N.ImageReference b.repo b.tag) = some img := by
    unfold LookupImage
    simp only [hparse, htag, if_false, hku.find_key hb, hbid, himg]
  have hlen : ¬ (TagStore.ByID N d.repositories img.ID).length ≤ 1 := by
    rw [TagStore.ByID_length]; omega
  have hlen2 : ¬ (TagStore.ByID N (d.repositories.erase b) img.ID).length = 0 := by
    rw [TagStore.ByID_length]; omega
  have hbody : DeleteImageBody N d imgs (N.ImageReference b.repo b.tag) true force noprune =
      some (.done ⟨{ d with repositories := d.repositories.erase b },
        imgs ++ [.Untagged (N.ImageReference b.repo b.tag)], none⟩) := by
    unfold DeleteImageBody
    simp only [hname, if_false, hl, hsub, hparse, htag, hrepo, Bool.false_eq_true,
      Bool.true_eq_false, false_and, hlen, untagLoop, TagStore.Delete_key hku hb, if_true,
      and_false, hlen2, or_self]
  rw [DeleteImage_unfold, hbody]

/-- C4, witness: `exTwoTags`, untagging `a:1` of the image `x` that also carries `a:2`. -/
theorem DeleteImage_untags_one_binding_witness :
    DeleteImage stdNames exTwoTags [] (stdNames.ImageReference "a" "1") true false false =
      some ⟨{ exTwoTags with repositories := exTwoTags.repositories.erase ⟨"a", "1", "x"⟩ },
        [] ++ [.Untagged (stdNames.ImageReference "a" "1")], none⟩ ∧
    (bindingsOf (exTwoTags.repositories.erase ⟨"a", "1", "x"⟩) "x").length + 1 =
      (bindingsOf exTwoTags.repositories "x").length :=
  DeleteImage_untags_one_binding stdNames exTwoTags [] false false ⟨"x", ""⟩ ⟨"a", "1", "x"⟩
    (by decide) rfl (by decide) (by decide) (by decide) (by decide) (by decide)

/-! ## C2: the last binding of a childless, unreferenced image -/

theorem bindingsOf_filter (idx : List Binding) (q : Binding → Bool) (id : String) :
    bindingsOf (idx.filter q) id = (bindingsOf idx id).filter q := by
  unfold bindingsOf
  rw [List.filter_filter, List.filter_filter]
  apply List.filter_congr
  intro b _
  exact Bool.and_comm _ _

theorem mem_of_bindingsOf {idx : List Binding} {id : String} {b : Binding}
    (h : b ∈ bindingsOf idx id) : b ∈ idx ∧ b.id = id := by
  simpa [bindingsOf] using h

theorem canDeleteImage_free {N : Names} {d : Daemon} (hpc : ParentClosed d.graph)
    (hac : Acyclic d.graph) {ids : List String} (hfree : Unreferenced N d ids) {imgID : String}
    (hid : imgID ∈ ids) (force : Bool) : canDeleteImage N d imgID force = some none := by
  unfold canDeleteImage
  apply canDeleteLoop_free hpc hac
  intro c hc ci hci x hx he
  exact hfree c hc ci hci x hx (he ▸ hid)

/-- The state after the single binding `b` of `img` has been untagged and `img` deleted. -/
theorem DeleteImageBody_single (N : Names) (d : Daemon) (imgs : List Effect) (name : String)
    (force noprune : Bool) (img : Image) (b : Binding)
    (hname : name ≠ "") (hl : LookupImage N d name = some img)
    (hone : bindingsOf d.repositories img.ID = [b])
    (hparse : N.ParseRepositoryTag (N.ImageReference b.repo b.tag) = (b.repo, b.tag))
    (htag : b.tag ≠ "")
    (hnamed : (name = N.ImageReference b.repo b.tag ∧ strContains img.ID name = false) ∨
      strContains img.ID name = true)
    (hch : Graph.ByParent d.graph img.ID = [])
    (hfree : Unreferenced N d [img.ID])
    (hpc : ParentClosed d.graph) (hac : Acyclic d.graph) :
    DeleteImageBody N d imgs name true force noprune =
      some (if img.Parent ≠ "" ∧ noprune = false then
        .prune ⟨Graph.Delete d.graph img.ID,
            TagStore.DeleteAll (TagStore.Delete d.repositories b.repo b.tag).2 img.ID,
            d.containers⟩
          (imgs ++ [.Untagged (N.ImageReference b.repo b.tag), .Deleted img.ID]) img.Parent
      else
        .done ⟨⟨Graph.Delete d.graph img.ID,
            TagStore.DeleteAll (TagStore.Delete d.repositories b.repo b.tag).2 img.ID,
            d.containers⟩,
          imgs ++ [.Untagged (N.ImageReference b.repo b.tag), .Deleted img.ID], none⟩) := by
  have hbm : b ∈ d.repositories := by
    have : b ∈ bindingsOf d.repositories img.ID := by rw [hone]; exact List.mem_cons_self _ _
    exact (mem_of_bindingsOf this).1
  have hrefs : TagStore.ByID N d.repositories img.ID = [N.ImageReference b.repo b.tag] := by
    show (bindingsOf d.repositories img.ID).map _ = _
    rw [hone]; rfl
  have hcan := canDeleteImage_free hpc hac hfree (List.mem_cons_self _ _) force
  have hany : d.repositories.any (fun b0 => decide (b0.repo = b.repo ∧ b0.tag = b.tag)) =
      true := by
    rw [List.any_eq_true]
    exact ⟨b, hbm, by simp⟩
  have hdel : TagStore.Delete d.repositories b.repo b.tag =
      (true, d.repositories.filter
        (fun b0 => decide (¬ (b0.repo = b.repo ∧ b0.tag = b.tag)))) := by
    unfold TagStore.Delete
    rw [if_pos hany]
  have hafter : TagStore.ByID N (d.repositories.filter
      (fun b0 => decide (¬ (b0.repo = b.repo ∧ b0.tag = b.tag)))) img.ID = [] := by
    show (bindingsOf _ img.ID).map _ = _
    rw [bindingsOf_filter, hone]
    simp
  have htags : (if (if strContains img.ID name = true then ""
        else (N.ParseRepositoryTag name).1) = "" then
      collectTags N name force true (TagStore.ByID N d.repositories img.ID)
        (if strContains img.ID name = true then "" else (N.ParseRepositoryTag name).1) []
      else Except.ok (if strContains img.ID name = true then ""
        else (N.ParseRepositoryTag name).1,
        [if strContains img.ID name = true then ""
          else if (N.ParseRepositoryTag name).2 = "" then N.DEFAULTTAG
          else (N.ParseRepositoryTag name).2])) = .ok (b.repo, [b.tag]) := by
    rcases hnamed with ⟨hn, hs⟩ | hs
    · subst hn
      simp only [hs, Bool.false_eq_true, if_false, hparse, htag]
      by_cases hr : b.repo = ""
      · have hparse2 := hparse
        rw [hr] at hparse2
        simp [hr, hrefs, collectTags, hparse2, htag]
      · simp [hr]
    · simp [hs, hrefs, collectTags, hparse, htag]
  unfold DeleteImageBody
  simp only [hname, if_false, hl, htags]
  simp only [Bool.true_eq_false, false_and, if_false, hrefs, List.length_singleton, le_refl,
    if_true, hcan, untagLoop, hdel, hafter, List.length_nil, or_true, hch]
  by_cases hp : img.Parent ≠ "" ∧ noprune = false
  · rw [if_pos hp, if_pos hp]; simp
  · rw [if_neg hp, if_neg hp]; simp

/-- C2. In a parent-closed acyclic store, for an image with exactly one binding, no child
image and no container whose ancestry contains it, a top-level `DeleteImage` naming it by its
`repo:tag` or by its id returns with a table that continues the given one with
`Untagged repo:tag` and then `Deleted id`; afterwards the store has no node with that id and
the index does not contain the binding. -/
theorem DeleteImage_last_binding (N : Names) (d : Daemon) (imgs : List Effect) (name : String)
    (force noprune : Bool) (img : Image) (b : Binding)
    (hname : name ≠ "") (hl : LookupImage N d name = some img)
    (hone : bindingsOf d.repositories img.ID = [b])
    (hparse : N.ParseRepositoryTag (N.ImageReference b.repo b.tag) = (b.repo, b.tag))
    (htag : b.tag ≠ "")
    (hnamed : (name = N.ImageReference b.repo b.tag ∧ strContains img.ID name = false) ∨
      strContains img.ID name = true)
    (hch : Graph.ByParent d.graph img.ID = [])
    (hfree : Unreferenced N d [img.ID])
    (hpc : ParentClosed d.graph) (hac : Acyclic d.graph) :
    ∃ o rest, DeleteImage N d imgs name true force noprune = some o ∧
      o.imgs = imgs ++ [.Untagged (N.ImageReference b.repo b.tag), .Deleted img.ID] ++ rest ∧
      (∀ i ∈ o.daemon.graph, i.ID ≠ img.ID) ∧ b ∉ o.daemon.repositories := by
  have hbody := DeleteImageBody_single N d imgs name force noprune img b hname hl hone hparse
    htag hnamed hch hfree hpc hac
  have hbid : b.id = img.ID := by
    have : b ∈ bindingsOf d.repositories img.ID := by rw [hone]; exact List.mem_cons_self _ _
    exact (mem_of_bindingsOf this).2
  have hnotin : b ∉ TagStore.DeleteAll (TagStore.Delete d.repositories b.repo b.tag).2 img.ID := by
    intro hin
    simp [TagStore.DeleteAll, hbid] at hin
  rw [DeleteImage_unfold, hbody]
  by_cases hp : img.Parent ≠ "" ∧ noprune = false
  · rw [if_pos hp]
    simp only
    have hac1 : Acyclic (Graph.Delete d.graph img.ID) := Acyclic_Delete _ hac
    obtain ⟨o, ho⟩ := DeleteImage_returns N _ ⟨Graph.Delete d.graph img.ID,
      TagStore.DeleteAll (TagStore.Delete d.repositories b.repo b.tag).2 img.ID,
      d.containers⟩ rfl hac1
      (imgs ++ [.Untagged (N.ImageReference b.repo b.tag), .Deleted img.ID]) img.Parent false
      force noprune
    obtain ⟨_, ⟨us, hus⟩, hsub, hg, _⟩ := DeleteImage_frame N _ _ rfl _ _ _ _ _ o ho
    rw [ho]
    refine ⟨o, us, by simp, hus, ?_, fun hin => hnotin (hsub b hin)⟩
    intro i hi
    exact (Graph.mem_Delete.1 (hg i hi)).2
  · rw [if_neg hp]
    refine ⟨_, [], rfl, by simp, ?_, hnotin⟩
    intro i hi
    exact (Graph.mem_Delete.1 hi).2

/-- C2, witness: `exChain`, deleting `a` by its only tag `r:t`. -/
theorem DeleteImage_last_binding_witness :
    ∃ o rest, DeleteImage stdNames exChain [] "r:t" true false false = some o ∧
      o.imgs = [] ++ [.Untagged (stdNames.ImageReference "r" "t"), .Deleted "a"] ++ rest ∧
      (∀ i ∈ o.daemon.graph, i.ID ≠ "a") ∧
      (⟨"r", "t", "a"⟩ : Binding) ∉ o.daemon.repositories :=
  DeleteImage_last_binding stdNames exChain [] "r:t" false false ⟨"a", "b"⟩ ⟨"r", "t", "a"⟩
    (by decide) (by decide) (by decide) (by decide) (by decide) (Or.inl (by decide))
    (by decide) (by decide) (by decide) ⟨exRank, by decide⟩

/-! ## The state after one node has been deleted -/

theorem find_filter_of_some {α : Type} {p q : α → Bool} :
    ∀ {xs : List α} {b : α}, xs.find? p = some b → q b = true →
      (xs.filter q).find? p = some b := by
  intro xs
  induction xs with
  | nil => intro b h; cases h
  | cons a t ih =>
    intro b h hq
    by_cases hp : p a = true
    · simp only [List.find?, hp] at h
      cases h
      simp [List.filter, List.find?, hp, hq]
    · have hp2 : p a = false := by simpa using hp
      simp only [List.find?, hp2] at h
      cases hqa : q a with
      | true =>
        simp only [List.filter, hqa, List.find?, hp2]
        exact ih h hq
      | false =>
        simp only [List.filter, hqa]
        exact ih h hq

theorem find_filter_of_none {α : Type} {p q : α → Bool} {xs : List α}
    (h : xs.find? p = none) : (xs.filter q).find? p = none := by
  rw [List.find?_eq_none] at h ⊢
  intro x hx
  exact h x (List.mem_filter.1 hx).1

/-- A name that resolves to an image other than the deleted one still resolves to it. -/
theorem LookupImage_keep {N : Names} {d : Daemon} {n : String} {z : Image} {X : String}
    {q : Binding → Bool} (h : LookupImage N d n = some z) (hz : z.ID ≠ X)
    (hq : ∀ b0 ∈ d.repositories, q b0 = false → b0.id = X) :
    LookupImage N ⟨Graph.Delete d.graph X, d.repositories.filter q, d.containers⟩ n =
      some z := by
  unfold LookupImage at h ⊢
  simp only at h ⊢
  split at h
  · next b0 hb0 =>
    have hid := Graph.Get_id h
    have hqb : q b0 = true := by
      cases hqb : q b0 with
      | true => rfl
      | false => exact absurd (hid.trans (hq b0 (List.mem_of_find?_eq_some hb0) hqb)) hz
    rw [find_filter_of_some hb0 hqb]
    simp only
    rw [Graph.Get_Delete_of_ne (by rw [← hid]; exact hz)]
    exact h
  · next hb0 =>
    rw [find_filter_of_none hb0]
    simp only
    rw [Graph.Get_Delete_of_ne (by rw [← Graph.Get_id h]; exact hz)]
    exact h

/-- A name that resolves after the deletion resolved to the same image before, or resolved
to the deleted image. -/
theorem LookupImage_reflect {N : Names} {d : Daemon} {n : String} {ci : Image} {X : String}
    {q : Binding → Bool}
    (h : LookupImage N ⟨Graph.Delete d.graph X, d.repositories.filter q, d.containers⟩ n =
      some ci)
    (hX : ∃ xi, Graph.Get d.graph X = some xi)
    (hq : ∀ b0 ∈ d.repositories, q b0 = false → b0.id = X) :
    LookupImage N d n = some ci ∨ ∃ a, LookupImage N d n = some a ∧ a.ID = X := by
  unfold LookupImage at h ⊢
  simp only at h ⊢
  cases hf : d.repositories.find? (fun b => decide (b.repo = (N.ParseRepositoryTag n).1 ∧
      b.tag = if (N.ParseRepositoryTag n).2 = "" then N.DEFAULTTAG
        else (N.ParseRepositoryTag n).2)) with
  | none =>
    rw [find_filter_of_none hf] at h
    simp only at h ⊢
    exact Or.inl (Graph.Get_of_Get_Delete h)
  | some b0 =>
    simp only
    cases hqb : q b0 with
    | true =>
      rw [find_filter_of_some hf hqb] at h
      simp only at h
      exact Or.inl (Graph.Get_of_Get_Delete h)
    | false =>
      have hid := hq b0 (List.mem_of_find?_eq_some hf) hqb
      obtain ⟨xi, hxi⟩ := hX
      rw [hid]
      exact Or.inr ⟨xi, hxi, Graph.Get_id hxi⟩

theorem history_Delete_subset {g : List Image} {X : String} :
    ∀ (f2 f : Nat) (img : Image), f2 ≤ f → ∀ x ∈ history (Graph.Delete g X) f2 img,
      x ∈ history g f img := by
  intro f2
  induction f2 with
  | zero => intro f img _ x hx; simp [history] at hx
  | succ n ih =>
    intro f img hle x hx
    cases f with
    | zero => omega
    | succ k =>
      simp only [history, List.mem_cons] at hx ⊢
      rcases hx with rfl | hx
      · exact Or.inl rfl
      · right
        split at hx
        · cases hx
        · next hne =>
          split at hx
          · cases hx
          · next p hp =>
            rw [if_neg hne, Graph.Get_of_Get_Delete hp]
            exact ih k p (by omega) x hx

theorem history_head {g : List Image} (f : Nat) (img : Image) :
    img ∈ history g (f + 1) img := by
  simp [history]

theorem Unreferenced_after_delete {N : Names} {d : Daemon} {ids : List String} {X : String}
    {q : Binding → Bool} (h : Unreferenced N d ids) (hXi : X ∈ ids)
    (hX : ∃ xi, Graph.Get d.graph X = some xi)
    (hq : ∀ b0 ∈ d.repositories, q b0 = false → b0.id = X) :
    Unreferenced N ⟨Graph.Delete d.graph X, d.repositories.filter q, d.containers⟩ ids := by
  intro c hc ci hci x hx
  rcases LookupImage_reflect hci hX hq with h1 | ⟨a, ha, haid⟩
  · apply h c hc ci h1 x
    unfold ancestry at hx ⊢
    refine history_Delete_subset _ _ ci ?_ x hx
    have : (Graph.Delete d.graph X).length ≤ d.graph.length := List.length_filter_le _ _
    simp only
    omega
  · exfalso
    exact h c hc a ha a (history_head _ a) (haid ▸ hXi)

theorem Unreferenced_mono {N : Names} {d : Daemon} {ids ids2 : List String}
    (h : Unreferenced N d ids) (hs : ∀ i ∈ ids2, i ∈ ids) : Unreferenced N d ids2 :=
  fun c hc ci hci x hx hm => h c hc ci hci x hx (hs _ hm)

theorem Graph.ByParent_Delete (g : List Image) (X id : String) :
    Graph.ByParent (Graph.Delete g X) id =
      (Graph.ByParent g id).filter (fun i => decide (i.ID ≠ X)) := by
  unfold Graph.ByParent Graph.Delete
  rw [List.filter_filter, List.filter_filter]
  apply List.filter_congr
  intro b _
  exact Bool.and_comm _ _

theorem ParentLink_after_delete {N : Names} {d : Daemon} {u v : Image} {X : String}
    {q : Binding → Bool} (h : ParentLink N d u v) (hu : u.ID ≠ X) (hv : v.ID ≠ X)
    (hq : ∀ b0 ∈ d.repositories, q b0 = false → b0.id = X) :
    ParentLink N ⟨Graph.Delete d.graph X, d.repositories.filter q, d.containers⟩ u v := by
  obtain ⟨h1, h2, h3, h4⟩ := h
  refine ⟨h1, LookupImage_keep h2 hv hq, ?_, ?_⟩
  · rw [bindingsOf_filter, h3]; rfl
  · rw [Graph.ByParent_Delete, h4]
    simp [List.filter, hu]

theorem IsChain_after_delete {N : Names} {d : Daemon} {X : String} {q : Binding → Bool}
    (hq : ∀ b0 ∈ d.repositories, q b0 = false → b0.id = X) :
    ∀ chain : List Image, IsChain N d chain → (∀ u ∈ chain, u.ID ≠ X) →
      IsChain N ⟨Graph.Delete d.graph X, d.repositories.filter q, d.containers⟩ chain := by
  intro chain
  induction chain with
  | nil => intro _ _; trivial
  | cons y rest ih =>
    cases rest with
    | nil => intro _ _; trivial
    | cons z rest2 =>
      intro h hne
      exact ⟨ParentLink_after_delete h.1 (hne y (List.mem_cons_self _ _))
        (hne z (List.mem_cons_of_mem _ (List.mem_cons_self _ _))) hq,
        ih h.2 (fun u hu => hne u (List.mem_cons_of_mem _ hu))⟩

/-- A name that resolves to an image without binding is the id of that image. -/
theorem LookupImage_unbound {N : Names} {d : Daemon} {n : String} {z : Image}
    (h : LookupImage N d n = some z) (hub : bindingsOf d.repositories z.ID = []) :
    Graph.Get d.graph n = some z := by
  unfold LookupImage at h
  simp only at h
  split at h
  · next b0 hb0 =>
    exfalso
    have hid := Graph.Get_id h
    have : b0 ∈ bindingsOf d.repositories z.ID := by
      simp [bindingsOf, List.mem_of_find?_eq_some hb0, hid]
    rw [hub] at this
    cases this
  · exact h

theorem startsWith_self (s : List Char) : startsWith s s = true := by
  induction s with
  | nil => rfl
  | cons c t ih => simp [startsWith, ih]

theorem strContains_self (s : String) : strContains s s = true := by
  unfold strContains
  cases h : s.data with
  | nil => rfl
  | cons c t => simp [containsChars, startsWith_self]

theorem TagStore.DeleteAll_unbound {idx : List Binding} {id : String}
    (h : bindingsOf idx id = []) : TagStore.DeleteAll idx id = idx := by
  unfold TagStore.DeleteAll
  rw [List.filter_eq_self]
  intro b hb
  by_cases hid : b.id = id
  · have : b ∈ bindingsOf idx id := by simp [bindingsOf, hb, hid]
    rw [h] at this
    cases this
  · simpa using hid

/-! ## Frames of the cascade -/

/-- A nested frame on an image without binding, without child and out of every container's
ancestry deletes the node and, when the image has a parent, goes on to the parent. -/
theorem DeleteImageBody_unbound (N : Names) (d : Daemon) (imgs : List Effect) (pname : String)
    (force : Bool) (y : Image) (ids : List String)
    (hname : pname ≠ "") (hl : LookupImage N d pname = some y)
    (hub : bindingsOf d.repositories y.ID = [])
    (hch : Graph.ByParent d.graph y.ID = [])
    (hfree : Unreferenced N d ids) (hy : y.ID ∈ ids)
    (hpc : ParentClosed d.graph) (hac : Acyclic d.graph) :
    DeleteImageBody N d imgs pname false force false =
      some (if y.Parent ≠ "" then
        .prune ⟨Graph.Delete d.graph y.ID, d.repositories, d.containers⟩
          (imgs ++ [.Deleted y.ID]) y.Parent
      else
        .done ⟨⟨Graph.Delete d.graph y.ID, d.repositories, d.containers⟩,
          imgs ++ [.Deleted y.ID], none⟩) := by
  have hpn : pname = y.ID := (Graph.Get_id (LookupImage_unbound hl hub)).symm
  have hsc : strContains y.ID pname = true := by rw [hpn]; exact strContains_self _
  have hrefs : TagStore.ByID N d.repositories y.ID = [] := by
    show (bindingsOf d.repositories y.ID).map _ = _
    rw [hub]; rfl
  have hcan := canDeleteImage_free hpc hac hfree hy force
  unfold DeleteImageBody
  simp only [hname, if_false, hl, hsc, if_true, hrefs, collectTags, List.length_nil,
    gt_iff_lt, lt_self_iff_false, and_false, Nat.zero_le, hcan, untagLoop, true_and, or_true,
    hch, TagStore.DeleteAll_unbound hub, and_true]
  by_cases hp : y.Parent ≠ ""
  · rw [if_pos hp, if_pos hp]
  · rw [if_neg hp, if_neg hp]

theorem collectTags_nested (N : Names) (name : String) (force : Bool) :
    ∀ (refs : List String) (r : String) (tags : List String),
      ∃ r2 tags2, collectTags N name force false refs r tags = .ok (r2, tags2) ∧
        tags.length ≤ tags2.length := by
  intro refs
  induction refs with
  | nil => intro r tags; exact ⟨r, tags, rfl, le_rfl⟩
  | cons a t ih =>
    intro r tags
    simp only [collectTags]
    split
    · obtain ⟨r2, tags2, h1, h2⟩ := ih (N.ParseRepositoryTag a).1
        (if (N.ParseRepositoryTag a).2 ≠ "" then tags ++ [(N.ParseRepositoryTag a).2] else tags)
      refine ⟨r2, tags2, h1, le_trans ?_ h2⟩
      split <;> simp
    · simp only [Bool.false_eq_true, and_false, if_false]
      exact ih r tags

/-- A nested frame on an image that has a binding, or has no binding but a child, returns
without touching state or table. -/
theorem DeleteImageBody_stops (N : Names) (d : Daemon) (imgs : List Effect) (pname : String)
    (force noprune : Bool) (s : Image)
    (hname : pname ≠ "") (hl : LookupImage N d pname = some s)
    (hac : Acyclic d.graph) (hwf : RefsParse N d.repositories)
    (hcond : bindingsOf d.repositories s.ID ≠ [] ∨ Graph.ByParent d.graph s.ID ≠ []) :
    ∃ e, DeleteImageBody N d imgs pname false force noprune = some (.done ⟨d, imgs, e⟩) := by
  by_cases hub : bindingsOf d.repositories s.ID = []
  · have hch : Graph.ByParent d.graph s.ID ≠ [] := by
      rcases hcond with h | h
      · exact absurd hub h
      · exact h
    have hch2 : ¬ (Graph.ByParent d.graph s.ID).length = 0 := fun h =>
      hch (List.eq_nil_of_length_eq_zero h)
    have hpn : pname = s.ID := (Graph.Get_id (LookupImage_unbound hl hub)).symm
    have hsc : strContains s.ID pname = true := by rw [hpn]; exact strContains_self _
    have hrefs : TagStore.ByID N d.repositories s.ID = [] := by
      show (bindingsOf d.repositories s.ID).map _ = _
      rw [hub]; rfl
    obtain ⟨r, hr⟩ := canDeleteLoop_some (N := N) hac s.ID force d.containers
    have hcan : canDeleteImage N d s.ID force = some r := hr
    unfold DeleteImageBody
    simp only [hname, if_false, hl, hsc, if_true, hrefs, collectTags, List.length_nil,
      gt_iff_lt, lt_self_iff_false, and_false, Nat.zero_le, hcan, untagLoop, true_and, or_true,
      hch2]
    cases r with
    | some e => exact ⟨some e, rfl⟩
    | none => exact ⟨none, rfl⟩
  · have hscrut : ∃ r tags, (if (if strContains s.ID pname = true then ""
          else (N.ParseRepositoryTag pname).1) = "" then
        collectTags N pname force false (TagStore.ByID N d.repositories s.ID)
          (if strContains s.ID pname = true then "" else (N.ParseRepositoryTag pname).1) []
        else Except.ok (if strContains s.ID pname = true then ""
          else (N.ParseRepositoryTag pname).1,
          [if strContains s.ID pname = true then ""
            else if (N.ParseRepositoryTag pname).2 = "" then N.DEFAULTTAG
            else (N.ParseRepositoryTag pname).2])) = .ok (r, tags) ∧ 0 < tags.length := by
      by_cases hr : (if strContains s.ID pname = true then ""
          else (N.ParseRepositoryTag pname).1) = ""
      · rw [if_pos hr, hr]
        cases hbs : bindingsOf d.repositories s.ID with
        | nil => exact absurd hbs hub
        | cons b1 rest =>
          have hb1 : b1 ∈ d.repositories := by
            have : b1 ∈ bindingsOf d.repositories s.ID := by
              rw [hbs]; exact List.mem_cons_self _ _
            exact (mem_of_bindingsOf this).1
          obtain ⟨hparse, htag, _⟩ := hwf b1 hb1
          have hrefs : TagStore.ByID N d.repositories s.ID =
              N.ImageReference b1.repo b1.tag ::
                rest.map (fun b => N.ImageReference b.repo b.tag) := by
            show (bindingsOf d.repositories s.ID).map _ = _
            rw [hbs]; rfl
          rw [hrefs]
          simp only [collectTags, hparse, true_or, if_true, htag, ne_eq, not_false_eq_true,
            List.nil_append]
          obtain ⟨r2, tags2, h1, h2⟩ := collectTags_nested N pname force
            (rest.map (fun b => N.ImageReference b.repo b.tag)) b1.repo [b1.tag]
          exact ⟨r2, tags2, h1, by simpa using h2⟩
      · rw [if_neg hr]
        exact ⟨_, _, rfl, by simp⟩
    obtain ⟨r, tags, hscrut, hlen⟩ := hscrut
    unfold DeleteImageBody
    simp only [hname, if_false, hl, hscrut]
    simp only [gt_iff_lt, hlen, and_self, if_true]
    exact ⟨none, rfl⟩

/-! ## The cascade -/

theorem HaltsAbove_after_delete {N : Names} {d : Daemon} {X : String} {q : Binding → Bool}
    {ids ids2 : List String} {t : Image}
    (hq : ∀ b0 ∈ d.repositories, q b0 = false → b0.id = X)
    (hids : ∀ i ∈ ids2, i ∈ ids) (hX : X ∈ ids) (h : HaltsAbove N d ids t) :
    HaltsAbove N ⟨Graph.Delete d.graph X, d.repositories.filter q, d.containers⟩ ids2 t := by
  rcases h with h | ⟨s, hl, hs, hc⟩
  · exact Or.inl h
  · have hsX : s.ID ≠ X := fun e => hs (e ▸ hX)
    refine Or.inr ⟨s, LookupImage_keep hl hsX hq, fun hm => hs (hids _ hm), ?_⟩
    rcases hc with hb | ⟨x, hx, hxi⟩
    · left
      show bindingsOf (d.repositories.filter q) s.ID ≠ []
      rw [bindingsOf_filter]
      have : (bindingsOf d.repositories s.ID).filter q = bindingsOf d.repositories s.ID := by
        rw [List.filter_eq_self]
        intro b0 hb0
        obtain ⟨hm, hid⟩ := mem_of_bindingsOf hb0
        cases hqb : q b0 with
        | true => rfl
        | false => exact absurd (hid.symm.trans (hq b0 hm hqb)) hsX
      rw [this]
      exact hb
    · right
      refine ⟨x, ?_, fun hm => hxi (hids _ hm)⟩
      show x ∈ Graph.ByParent (Graph.Delete d.graph X) s.ID
      rw [Graph.ByParent_Delete, List.mem_filter]
      refine ⟨hx, ?_⟩
      have : x.ID ≠ X := fun e => hxi (e ▸ hX)
      simpa using this

theorem RefsParse_filter {N : Names} {idx : List Binding} (q : Binding → Bool)
    (h : RefsParse N idx) : RefsParse N (idx.filter q) :=
  fun b hb => h b (List.mem_filter.1 hb).1

/-- The hypotheses of the cascade on the chain `z :: up` hold again in the state reached by
deleting the node `X` below the chain. -/
theorem cascade_after_delete {N : Names} {d : Daemon} {X : String} {q : Binding → Bool}
    {y z : Image} {up : List Image}
    (hq : ∀ b0 ∈ d.repositories, q b0 = false → b0.id = X)
    (hyX : y.ID = X) (hy : y ∈ d.graph) (hychild : Graph.ByParent d.graph y.ID = [])
    (hchain : IsChain N d (y :: z :: up))
    (hnd : ((y :: z :: up).map (fun u => u.ID)).Nodup)
    (hfree : Unreferenced N d ((y :: z :: up).map (fun u => u.ID)))
    (hpc : ParentClosed d.graph) (hac : Acyclic d.graph) (hwf : RefsParse N d.repositories)
    (hstop : ∀ t ∈ (y :: z :: up).getLast?,
      HaltsAbove N d ((y :: z :: up).map (fun u => u.ID)) t) :
    y.Parent ≠ "" ∧
    LookupImage N ⟨Graph.Delete d.graph X, d.repositories.filter q, d.containers⟩ y.Parent
      = some z ∧
    bindingsOf (d.repositories.filter q) z.ID = [] ∧
    Graph.ByParent (Graph.Delete d.graph X) z.ID = [] ∧
    IsChain N ⟨Graph.Delete d.graph X, d.repositories.filter q, d.containers⟩ (z :: up) ∧
    ((z :: up).map (fun u => u.ID)).Nodup ∧
    Unreferenced N ⟨Graph.Delete d.graph X, d.repositories.filter q, d.containers⟩
      ((z :: up).map (fun u => u.ID)) ∧
    ParentClosed (Graph.Delete d.graph X) ∧ Acyclic (Graph.Delete d.graph X) ∧
    RefsParse N (d.repositories.filter q) ∧
    (∀ t ∈ (z :: up).getLast?,
      HaltsAbove N ⟨Graph.Delete d.graph X, d.repositories.filter q, d.containers⟩
        ((z :: up).map (fun u => u.ID)) t) := by
  obtain ⟨⟨hp, hlz, hzub, hzch⟩, hrest⟩ := hchain
  have hnd2 := List.nodup_cons.1 hnd
  have hne : ∀ u ∈ z :: up, u.ID ≠ X := by
    intro u hu e
    apply hnd2.1
    show y.ID ∈ (z :: up).map (fun u => u.ID)
    rw [hyX, ← e]
    exact List.mem_map_of_mem (fun u : Image => u.ID) hu
  have hzX : z.ID ≠ X := hne z (List.mem_cons_self _ _)
  have hXmem : X ∈ (y :: z :: up).map (fun u => u.ID) := by
    rw [← hyX]; exact List.mem_map_of_mem (fun u : Image => u.ID) (List.mem_cons_self _ _)
  have hsub : ∀ i ∈ (z :: up).map (fun u => u.ID), i ∈ (y :: z :: up).map (fun u => u.ID) :=
    fun i hi => List.mem_cons_of_mem _ hi
  have hXpres : ∃ xi, Graph.Get d.graph X = some xi := by
    rw [← hyX]; exact Graph.Get_isSome_of_mem hy
  refine ⟨hp, LookupImage_keep hlz hzX hq, ?_, ?_, IsChain_after_delete hq _ hrest hne,
    hnd2.2, Unreferenced_mono (Unreferenced_after_delete hfree hXmem hXpres hq) hsub, ?_,
    Acyclic_Delete _ hac, RefsParse_filter q hwf, ?_⟩
  · rw [bindingsOf_filter, hzub]; rfl
  · rw [Graph.ByParent_Delete, hzch]
    have : y.ID = X := hyX
    simp [List.filter, this]
  · rw [← hyX]; exact ParentClosed_Delete hpc hychild
  · intro t ht
    apply HaltsAbove_after_delete hq hsub hXmem
    apply hstop t
    rw [List.getLast?_cons_cons]
    exact ht

/-- The nested frames delete the whole chain, bottom to top, and return no error. -/
theorem DeleteImage_nested_cascade (N : Names) (force : Bool) :
    ∀ (up : List Image) (y : Image) (d : Daemon) (imgs : List Effect) (pname : String),
      pname ≠ "" → LookupImage N d pname = some y →
      bindingsOf d.repositories y.ID = [] →
      Graph.ByParent d.graph y.ID = [] →
      IsChain N d (y :: up) →
      ((y :: up).map (fun u => u.ID)).Nodup →
      Unreferenced N d ((y :: up).map (fun u => u.ID)) →
      ParentClosed d.graph → Acyclic d.graph → RefsParse N d.repositories →
      (∀ t ∈ (y :: up).getLast?, HaltsAbove N d ((y :: up).map (fun u => u.ID)) t) →
      DeleteImage N d imgs pname false force false =
        some ⟨⟨pruneChain d.graph (y :: up), d.repositories, d.containers⟩,
          imgs ++ (y :: up).map (fun u => Effect.Deleted u.ID), none⟩ := by
  intro up
  induction up with
  | nil =>
    intro y d imgs pname hname hl hub hch _ _ hfree hpc hac hwf hstop
    have hbody := DeleteImageBody_unbound N d imgs pname force y _ hname hl hub hch hfree
      (List.mem_cons_self _ _) hpc hac
    rw [DeleteImage_unfold, hbody]
    by_cases hp : y.Parent ≠ ""
    · rw [if_pos hp]
      simp only
      have hq : ∀ b0 ∈ d.repositories, (fun _ : Binding => true) b0 = false → b0.id = y.ID :=
        fun _ _ h => by cases h
      have hst := HaltsAbove_after_delete (N := N) (t := y) hq
        (fun i (hi : i ∈ [y.ID]) => hi) (List.mem_cons_self _ _)
        (hstop y (by simp))
      rw [List.filter_true] at hst
      rcases hst with h0 | ⟨s, hls, _, hc⟩
      · exact absurd h0 hp
      · have hcond : bindingsOf d.repositories s.ID ≠ [] ∨
            Graph.ByParent (Graph.Delete d.graph y.ID) s.ID ≠ [] := by
          rcases hc with hb | ⟨x, hx, _⟩
          · exact Or.inl hb
          · exact Or.inr (List.ne_nil_of_mem hx)
        obtain ⟨e, he⟩ := DeleteImageBody_stops N
          ⟨Graph.Delete d.graph y.ID, d.repositories, d.containers⟩ (imgs ++ [.Deleted y.ID])
          y.Parent force false s hp hls (Acyclic_Delete _ hac) hwf hcond
        rw [DeleteImage_unfold, he]
        rfl
    · rw [if_neg hp]
      rfl
  | cons z up2 ih =>
    intro y d imgs pname hname hl hub hch hchain hnd hfree hpc hac hwf hstop
    have hbody := DeleteImageBody_unbound N d imgs pname force y _ hname hl hub hch hfree
      (List.mem_cons_self _ _) hpc hac
    have hq : ∀ b0 ∈ d.repositories, (fun _ : Binding => true) b0 = false → b0.id = y.ID :=
      fun _ _ h => by cases h
    obtain ⟨hp, h1, h2, h3, h4, h5, h6, h7, h8, h9, h10⟩ :=
      cascade_after_delete hq rfl (LookupImage_mem hl) hch hchain hnd hfree hpc hac hwf hstop
    rw [List.filter_true] at h1 h2 h4 h6 h9 h10
    have := ih z ⟨Graph.Delete d.graph y.ID, d.repositories, d.containers⟩
      (imgs ++ [.Deleted y.ID]) y.Parent hp h1 h2 h3 h4 h5 h6 h7 h8 h9 h10
    rw [DeleteImage_unfold, hbody, if_pos hp]
    simp only
    rw [this]
    simp [pruneChain]

/-! ## C3 -/

theorem mem_pruneChain {i : Image} :
    ∀ (chain : List Image) (g : List Image),
      i ∈ pruneChain g chain ↔ i ∈ g ∧ i.ID ∉ chain.map (fun u => u.ID) := by
  intro chain
  induction chain with
  | nil => intro g; simp [pruneChain]
  | cons y rest ih =>
    intro g
    show i ∈ pruneChain (Graph.Delete g y.ID) rest ↔ _
    rw [ih, Graph.mem_Delete]
    simp only [List.map_cons, List.mem_cons, not_or]
    tauto

/-- Along a chain the rank drops, and all its images are stored. -/
theorem IsChain_ranked {N : Names} {d : Daemon} {rank : String → Nat}
    (hr : Ranked rank d.graph) :
    ∀ chain : List Image, IsChain N d chain → (∀ h ∈ chain.head?, h ∈ d.graph) →
      chain.Pairwise (fun u v => rank v.ID < rank u.ID) ∧ ∀ u ∈ chain, u ∈ d.graph := by
  intro chain
  induction chain with
  | nil => intro _ _; exact ⟨List.Pairwise.nil, fun u hu => by cases hu⟩
  | cons y rest ih =>
    cases rest with
    | nil =>
      intro _ hh
      refine ⟨by simp, fun u hu => ?_⟩
      rw [List.mem_singleton] at hu
      subst hu
      exact hh u rfl
    | cons z rest2 =>
      intro hc hh
      obtain ⟨⟨hp, hlz, hzub, _⟩, hrest⟩ := hc
      have hy : y ∈ d.graph := hh y rfl
      have hg := LookupImage_unbound hlz hzub
      have hz : z ∈ d.graph := Graph.Get_mem hg
      have hlt : rank z.ID < rank y.ID := hr y hy z hz hp (Graph.Get_id hg)
      obtain ⟨hpw, hmem⟩ := ih hrest (fun h hh2 => by cases hh2; exact hz)
      refine ⟨List.pairwise_cons.2 ⟨?_, hpw⟩, ?_⟩
      · intro v hv
        rcases List.mem_cons.1 hv with rfl | hv2
        · exact hlt
        · exact lt_trans (List.rel_of_pairwise_cons hpw hv2) hlt
      · intro u hu
        rcases List.mem_cons.1 hu with rfl | hu2
        · exact hy
        · exact hmem u hu2

theorem pairwise_getLast {α : Type} {R : α → α → Prop} :
    ∀ l : List α, l.Pairwise R → ∀ t ∈ l.getLast?, ∀ u ∈ l, u = t ∨ R u t := by
  intro l
  induction l with
  | nil => intro _ t ht; cases ht
  | cons a rest ih =>
    cases rest with
    | nil =>
      intro _ t ht u hu
      rw [List.mem_singleton] at hu
      simp only [List.getLast?_singleton, Option.mem_def, Option.some.injEq] at ht
      exact Or.inl (hu.trans ht)
    | cons b rest2 =>
      intro hpw t ht u hu
      rw [List.getLast?_cons_cons] at ht
      obtain ⟨h1, h2⟩ := List.pairwise_cons.1 hpw
      rcases List.mem_cons.1 hu with rfl | hu2
      · exact Or.inr (h1 t (List.mem_of_mem_getLast? ht))
      · exact ih h2 t ht u hu2

/-- C3. In a parent-closed acyclic store with a well-formed index, let `A :: B :: C :: up` be
a chain: each image is the only child of the next, which is its parent and has no binding; `A`
has exactly one binding and no child; no container's ancestry contains an image of the chain;
and above the top of the chain the cascade stops (the top is a root, or its parent still has a
binding or a child off the chain). Then a top-level `DeleteImage` on `A` (by tag or by id) with
`noprune = false` returns no error; the rows it adds are `Untagged` for the binding of `A` and
then `Deleted` for `A`, `B`, `C` and the images of `up` in order, and nothing else; the index
loses exactly that binding; the store loses exactly the chain, so the parent of the top of the
chain stays in the store. -/
theorem DeleteImage_cascade (N : Names) (d : Daemon) (imgs : List Effect) (name : String)
    (force : Bool) (A B C : Image) (up : List Image) (b : Binding)
    (hname : name ≠ "") (hl : LookupImage N d name = some A)
    (hone : bindingsOf d.repositories A.ID = [b])
    (hnamed : (name = N.ImageReference b.repo b.tag ∧ strContains A.ID name = false) ∨
      strContains A.ID name = true)
    (hwf : RefsParse N d.repositories) (hku : KeysUnique d.repositories)
    (hch : Graph.ByParent d.graph A.ID = [])
    (hchain : IsChain N d (A :: B :: C :: up))
    (hfree : Unreferenced N d ((A :: B :: C :: up).map (fun u => u.ID)))
    (hpc : ParentClosed d.graph) (hac : Acyclic d.graph)
    (hstop : ∀ t ∈ (A :: B :: C :: up).getLast?,
      StopsAbove N d ((A :: B :: C :: up).map (fun u => u.ID)) t) :
    DeleteImage N d imgs name true force false =
      some ⟨⟨pruneChain d.graph (A :: B :: C :: up), d.repositories.erase b, d.containers⟩,
        imgs ++ [.Untagged (N.ImageReference b.repo b.tag), .Deleted A.ID, .Deleted B.ID,
          .Deleted C.ID] ++ up.map (fun u => Effect.Deleted u.ID), none⟩ ∧
    (∀ i, i ∈ pruneChain d.graph (A :: B :: C :: up) ↔
      i ∈ d.graph ∧ i.ID ∉ (A :: B :: C :: up).map (fun u => u.ID)) ∧
    (∀ t ∈ (A :: B :: C :: up).getLast?, t.Parent ≠ "" →
      ∀ s, Graph.Get d.graph t.Parent = some s →
        s ∈ pruneChain d.graph (A :: B :: C :: up)) := by
  obtain ⟨rank, hr⟩ := id hac
  have hA : A ∈ d.graph := LookupImage_mem hl
  obtain ⟨hpw, hmem⟩ := IsChain_ranked hr _ hchain (fun h hh => by cases hh; exact hA)
  have hnd : ((A :: B :: C :: up).map (fun u => u.ID)).Nodup := by
    rw [List.Nodup, List.pairwise_map]
    exact hpw.imp (fun h e => by rw [e] at h; exact lt_irrefl _ h)
  -- the parent of the top of the chain is off the chain
  have hoff : ∀ t ∈ (A :: B :: C :: up).getLast?, t.Parent ≠ "" →
      ∀ s, Graph.Get d.graph t.Parent = some s →
        s.ID ∉ (A :: B :: C :: up).map (fun u => u.ID) := by
    intro t ht hne s hs hin
    obtain ⟨u, hu, hus⟩ := List.mem_map.1 hin
    have htm : t ∈ d.graph := hmem t (List.mem_of_mem_getLast? ht)
    have hlt : rank s.ID < rank t.ID := hr t htm s (Graph.Get_mem hs) hne (Graph.Get_id hs)
    rcases pairwise_getLast _ hpw t ht u hu with rfl | h2
    · rw [hus] at hlt; exact lt_irrefl _ hlt
    · rw [hus] at h2; omega
  refine ⟨?_, fun i => mem_pruneChain _ _, ?_⟩
  · have hbm : b ∈ bindingsOf d.repositories A.ID := by rw [hone]; exact List.mem_cons_self _ _
    obtain ⟨hb, hbid⟩ := mem_of_bindingsOf hbm
    obtain ⟨hparse, htag, _⟩ := hwf b hb
    have hfreeA : Unreferenced N d [A.ID] :=
      Unreferenced_mono hfree (fun i hi => by
        rw [List.mem_singleton] at hi; subst hi; exact List.mem_cons_self _ _)
    have hbody := DeleteImageBody_single N d imgs name force false A b hname hl hone hparse
      htag hnamed hch hfreeA hpc hac
    have hp : A.Parent ≠ "" := hchain.1.1
    rw [if_pos ⟨hp, rfl⟩] at hbody
    have hcount := bindingsOf_erase hb hbid
    rw [hone] at hcount
    have hnil : bindingsOf (d.repositories.erase b) A.ID = [] :=
      List.eq_nil_of_length_eq_zero (by simpa using hcount)
    have hidx : TagStore.DeleteAll (TagStore.Delete d.repositories b.repo b.tag).2 A.ID =
        d.repositories.filter (fun x => x != b) := by
      rw [TagStore.Delete_key hku hb]
      simp only
      rw [TagStore.DeleteAll_unbound hnil,
        List.Nodup.erase_eq_filter (List.Nodup.of_map _ hku)]
    have herase : d.repositories.erase b = d.repositories.filter (fun x => x != b) :=
      List.Nodup.erase_eq_filter (List.Nodup.of_map _ hku) b
    have hq : ∀ b0 ∈ d.repositories, (fun x : Binding => x != b) b0 = false →
        b0.id = A.ID := by
      intro b0 _ h
      have : b0 = b := by simpa using h
      rw [this]; exact hbid
    have hhalt : ∀ t ∈ (A :: B :: C :: up).getLast?,
        HaltsAbove N d ((A :: B :: C :: up).map (fun u => u.ID)) t := by
      intro t ht
      rcases hstop t ht with h0 | ⟨s, hg, hls, hc⟩
      · exact Or.inl h0
      · by_cases hne : t.Parent = ""
        · exact Or.inl hne
        · exact Or.inr ⟨s, hls, hoff t ht hne s hg, hc⟩
    obtain ⟨_, h1, h2, h3, h4, h5, h6, h7, h8, h9, h10⟩ :=
      cascade_after_delete hq rfl hA hch hchain hnd hfree hpc hac hwf hhalt
    have hcas := DeleteImage_nested_cascade N force (C :: up) B
      ⟨Graph.Delete d.graph A.ID, d.repositories.filter (fun x => x != b), d.containers⟩
      (imgs ++ [.Untagged (N.ImageReference b.repo b.tag), .Deleted A.ID]) A.Parent hp h1 h2
      h3 h4 h5 h6 h7 h8 h9 h10
    rw [DeleteImage_unfold, hbody]
    simp only
    rw [hidx, hcas, herase]
    simp [pruneChain]
  · intro t ht hne s hs
    exact (mem_pruneChain _ _).2 ⟨Graph.Get_mem hs, hoff t ht hne s hs⟩

/-- C3, witness: `exChain`, where `a`, `b`, `c` are deleted and the cascade stops at `e`, which
still has the child `f` (used by a stopped container, so that the call on `e` fails and its
error is dropped). -/
theorem DeleteImage_cascade_witness :
    DeleteImage stdNames exChain [] "r:t" true false false =
      some ⟨⟨pruneChain exChain.graph [⟨"a", "b"⟩, ⟨"b", "c"⟩, ⟨"c", "e"⟩],
          exChain.repositories.erase ⟨"r", "t", "a"⟩, exChain.containers⟩,
        [] ++ [.Untagged (stdNames.ImageReference "r" "t"), .Deleted "a", .Deleted "b",
          .Deleted "c"] ++ ([] : List Image).map (fun u => Effect.Deleted u.ID), none⟩ ∧
    (∀ i, i ∈ pruneChain exChain.graph [⟨"a", "b"⟩, ⟨"b", "c"⟩, ⟨"c", "e"⟩] ↔
      i ∈ exChain.graph ∧
        i.ID ∉ ([⟨"a", "b"⟩, ⟨"b", "c"⟩, ⟨"c", "e"⟩] : List Image).map (fun u => u.ID)) ∧
    (∀ t ∈ ([⟨"a", "b"⟩, ⟨"b", "c"⟩, ⟨"c", "e"⟩] : List Image).getLast?, t.Parent ≠ "" →
      ∀ s, Graph.Get exChain.graph t.Parent = some s →
        s ∈ pruneChain exChain.graph [⟨"a", "b"⟩, ⟨"b", "c"⟩, ⟨"c", "e"⟩]) :=
  DeleteImage_cascade stdNames exChain [] "r:t" false ⟨"a", "b"⟩ ⟨"b", "c"⟩ ⟨"c", "e"⟩ []
    ⟨"r", "t", "a"⟩ (by decide) (by decide) (by decide) (Or.inl (by decide)) (by decide)
    (by decide) (by decide) ⟨by decide, by decide, trivial⟩ (by decide) (by decide)
    ⟨exRank, by decide⟩
    (fun t ht => by
      simp only [List.getLast?_cons_cons, List.getLast?_singleton, Option.mem_def,
        Option.some.injEq] at ht
      subst ht
      exact Or.inr ⟨⟨"e", ""⟩, by decide, by decide,
        Or.inr ⟨⟨"f", "e"⟩, by decide, by decide⟩⟩)

/-! ## C7 -/

/-- C7. When the top-level frame has deleted its image `A` (its `Untagged` rows and
`Deleted A` are in the table, `A` is out of the store) and reaches the recursive call on the
parent, the top-level call returns exactly what the call on the parent returns, error
included: an error of the parent's own frame is returned; but when the parent's frame itself
goes on to a further recursive call, whatever that call returns has its error dropped, and
the top-level call returns no error. -/
theorem DeleteImage_error_depth_one (N : Names) (d : Daemon) (imgs : List Effect)
    (name : String) (force noprune : Bool) (d1 : Daemon) (imgs1 : List Effect)
    (parent : String)
    (h : DeleteImageBody N d imgs name true force noprune = some (.prune d1 imgs1 parent)) :
    (∃ A us, LookupImage N d name = some A ∧ parent = A.Parent ∧
      imgs1 = imgs ++ us ++ [.Deleted A.ID] ∧ (∀ e ∈ us, ∃ ref, e = Effect.Untagged ref) ∧
      d1.graph = Graph.Delete d.graph A.ID ∧ ∀ i ∈ d1.graph, i.ID ≠ A.ID) ∧
    DeleteImage N d imgs name true force noprune =
      DeleteImage N d1 imgs1 parent false force noprune ∧
    (∀ o, DeleteImageBody N d1 imgs1 parent false force noprune = some (.done o) →
      DeleteImage N d imgs name true force noprune = some o) ∧
    (∀ d2 imgs2 q, DeleteImageBody N d1 imgs1 parent false force noprune =
        some (.prune d2 imgs2 q) →
      DeleteImage N d imgs name true force noprune =
        (DeleteImage N d2 imgs2 q false force noprune).map
          (fun o => { o with err := none })) := by
  have htop : DeleteImage N d imgs name true force noprune =
      DeleteImage N d1 imgs1 parent false force noprune := by
    rw [DeleteImage_unfold N d, h]
    simp only
    cases DeleteImage N d1 imgs1 parent false force noprune <;> rfl
  refine ⟨?_, htop, ?_, ?_⟩
  · obtain ⟨A, us, hl, _, hp, _, _, hg, _, hi, _, hun⟩ := DeleteImageBody_prune h
    refine ⟨A, us, hl, hp, hi, hun, hg, ?_⟩
    intro i hi2
    rw [hg] at hi2
    exact (Graph.mem_Delete.1 hi2).2
  · intro o ho
    rw [htop, DeleteImage_unfold, ho]
  · intro d2 imgs2 q hq
    rw [htop, DeleteImage_unfold, hq]
    simp only
    cases DeleteImage N d2 imgs2 q false force noprune <;> rfl

/-- C7, witness: in `exBlocked` the call on the parent `b` fails in its own frame (a running
container uses `b`), and the top-level call returns that error after deleting `a`. -/
theorem DeleteImage_error_depth_one_witness :
    (∃ A us, LookupImage stdNames exBlocked "r:t" = some A ∧ "b" = A.Parent ∧
      [.Untagged "r:t", .Deleted "a"] = [] ++ us ++ [.Deleted A.ID] ∧
      (∀ e ∈ us, ∃ ref, e = Effect.Untagged ref) ∧
      exBlockedAfter.graph = Graph.Delete exBlocked.graph A.ID ∧
      ∀ i ∈ exBlockedAfter.graph, i.ID ≠ A.ID) ∧
    DeleteImage stdNames exBlocked [] "r:t" true false false =
      DeleteImage stdNames exBlockedAfter [.Untagged "r:t", .Deleted "a"] "b" false false
        false ∧
    (∀ o, DeleteImageBody stdNames exBlockedAfter [.Untagged "r:t", .Deleted "a"] "b" false
        false false = some (.done o) →
      DeleteImage stdNames exBlocked [] "r:t" true false false = some o) ∧
    (∀ d2 imgs2 q, DeleteImageBody stdNames exBlockedAfter [.Untagged "r:t", .Deleted "a"]
        "b" false false false = some (.prune d2 imgs2 q) →
      DeleteImage stdNames exBlocked [] "r:t" true false false =
        (DeleteImage stdNames d2 imgs2 q false false false).map
          (fun o => { o with err := none })) :=
  DeleteImage_error_depth_one stdNames exBlocked [] "r:t" false false exBlockedAfter
    [.Untagged "r:t", .Deleted "a"] "b" (by decide)

/-- The two sides of C7 on concrete states: in `exBlocked` the error of the call on the parent
`b` comes back from the top-level call; in `exDeep` the call on `b` deletes `b`, the call on
`c` fails (a running container uses `c`), and the top-level call returns no error. -/
theorem DeleteImage_error_depth_examples :
    DeleteImage stdNames exBlocked [] "r:t" true false false =
      some ⟨exBlockedAfter, [.Untagged "r:t", .Deleted "a"],
        some (.runningConflict "b" "c1")⟩ ∧
    DeleteImage stdNames { exDeep with graph := [⟨"c", ""⟩], repositories := [] }
        [.Untagged "r:t", .Deleted "a", .Deleted "b"] "c" false false false =
      some ⟨{ exDeep with graph := [⟨"c", ""⟩], repositories := [] },
        [.Untagged "r:t", .Deleted "a", .Deleted "b"], some (.runningConflict "c" "c1")⟩ ∧
    DeleteImage stdNames exDeep [] "r:t" true false false =
      some ⟨{ exDeep with graph := [⟨"c", ""⟩], repositories := [] },
        [.Untagged "r:t", .Deleted "a", .Deleted "b"], none⟩ := by
  decide

/-! ## C8 and C9: notification -/

theorem httpNotify_eq_none (o : PushOutcome) :
    httpNotify o = none ↔ ∃ body, o = .response 204 body := by
  cases o with
  | requestError e => simp [httpNotify]
  | transportError e => simp [httpNotify]
  | response status body =>
    by_cases h : status = 204
    · simp [httpNotify, h]
    · simp [httpNotify, h]

/-- The first success comes in step `k` of the remaining loop. -/
theorem notifyLoop_success (push : Nat → PushOutcome) (url cid d : String) :
    ∀ (k n i : Nat), n + i = http_retry_times → k < n →
      (∀ j, j < k → httpNotify (push (i + j)) ≠ none) → httpNotify (push (i + k)) = none →
      notifyLoop push url cid d n i =
        (failedAttempts url cid d k ++ [.Post url cid d], none) := by
  intro k
  induction k with
  | zero =>
    intro n i _ hk _ hs
    cases n with
    | zero => omega
    | succ m =>
      simp only [Nat.add_zero] at hs
      simp [notifyLoop, hs, failedAttempts]
  | succ k ih =>
    intro n i hn hk hf hs
    cases n with
    | zero => omega
    | succ m =>
      have h0 := hf 0 (by omega)
      simp only [Nat.add_zero] at h0
      have hi : i ≠ http_retry_times - 1 := by
        simp only [http_retry_times] at hn ⊢
        omega
      have hrec := ih m (i + 1) (by omega) (by omega)
        (fun j hj => by
          have := hf (j + 1) (by omega)
          rwa [show i + 1 + j = i + (j + 1) by omega])
        (by rwa [show i + 1 + k = i + (k + 1) by omega])
      cases hp : httpNotify (push i) with
      | none => exact absurd hp h0
      | some err =>
        simp only [notifyLoop, hp, hi, if_false, hrec]
        simp [failedAttempts, List.replicate_succ, http_retry_interval_second]

/-- Every remaining attempt fails. -/
theorem notifyLoop_failure (push : Nat → PushOutcome) (url cid d : String) :
    ∀ (n i : Nat), n + 1 + i = http_retry_times →
      (∀ j, j < n + 1 → httpNotify (push (i + j)) ≠ none) →
      notifyLoop push url cid d (n + 1) i =
        (failedAttempts url cid d n ++ [.Post url cid d],
          httpNotify (push (http_retry_times - 1))) := by
  intro n
  induction n with
  | zero =>
    intro i hn hf
    have hi : i = http_retry_times - 1 := by
      simp only [http_retry_times] at hn ⊢
      omega
    have h0 := hf 0 (by omega)
    simp only [Nat.add_zero] at h0
    cases hp : httpNotify (push i) with
    | none => exact absurd hp h0
    | some err =>
      simp only [notifyLoop, hp, hi, if_true]
      rw [← hi, hp]
      simp [failedAttempts]
  | succ n ih =>
    intro i hn hf
    have hi : i ≠ http_retry_times - 1 := by
      simp only [http_retry_times] at hn ⊢
      omega
    have h0 := hf 0 (by omega)
    simp only [Nat.add_zero] at h0
    have hrec := ih (i + 1) (by omega)
      (fun j hj => by
        have := hf (j + 1) (by omega)
        rwa [show i + 1 + j = i + (j + 1) by omega])
    cases hp : httpNotify (push i) with
    | none => exact absurd hp h0
    | some err =>
      rw [notifyLoop]
      simp only [hp, hi, if_false, hrec]
      simp [failedAttempts, List.replicate_succ, http_retry_interval_second]

theorem notifyLoop_none_iff (push : Nat → PushOutcome) (url cid d : String) :
    ∀ (n i : Nat), n + 1 + i = http_retry_times →
      ((notifyLoop push url cid d (n + 1) i).2 = none ↔
        ∃ j, j < n + 1 ∧ httpNotify (push (i + j)) = none) := by
  intro n
  induction n with
  | zero =>
    intro i hn
    have hi : i = http_retry_times - 1 := by
      simp only [http_retry_times] at hn ⊢
      omega
    subst hi
    cases hp : httpNotify (push (http_retry_times - 1)) with
    | none =>
      simp only [notifyLoop, hp, true_iff]
      exact ⟨0, by omega, hp⟩
    | some err =>
      simp only [notifyLoop, hp, if_true]
      constructor
      · intro h; cases h
      · rintro ⟨j, hj, hs⟩
        have : j = 0 := by omega
        subst this
        rw [Nat.add_zero, hp] at hs
        cases hs
  | succ n ih =>
    intro i hn
    have hi : i ≠ http_retry_times - 1 := by
      simp only [http_retry_times] at hn ⊢
      omega
    cases hp : httpNotify (push i) with
    | none =>
      rw [notifyLoop]
      simp only [hp, true_iff]
      exact ⟨0, by omega, hp⟩
    | some err =>
      rw [notifyLoop]
      simp only [hp, hi, if_false]
      rw [ih (i + 1) (by omega)]
      constructor
      · rintro ⟨j, hj, hs⟩
        exact ⟨j + 1, by omega, by rwa [show i + (j + 1) = i + 1 + j by omega]⟩
      · rintro ⟨j, hj, hs⟩
        cases j with
        | zero => rw [Nat.add_zero, hp] at hs; cases hs
        | succ j => exact ⟨j, by omega, by rwa [show i + 1 + j = i + (j + 1) by omega]⟩

/-- C8. Once the status file is written, `notifyDaemon` pushes until the first attempt answered
with 204 or until 5 attempts are made: if attempt `k + 1` (`k < 5`) is the first one answered
with 204, the events after the write are `k` failed attempts, each followed by a sleep of 3
seconds, and then the successful attempt, and the result is success; if all five attempts
fail, the events are four failed attempts each followed by a sleep of 3 seconds and then the
fifth attempt without a sleep, and the result is the error of the fifth attempt; the result is
success exactly when one of the first five outcomes is a 204; and an attempt succeeds exactly
when it is answered with status 204. -/
theorem notifyDaemon_retries (push : Nat → PushOutcome) (url cid file d : String) :
    (∀ k, k < 5 → (∀ j, j < k → httpNotify (push j) ≠ none) → httpNotify (push k) = none →
      notifyDaemon none push url cid file d =
        (.WriteFile file d :: (failedAttempts url cid d k ++ [.Post url cid d]), none)) ∧
    ((∀ j, j < 5 → httpNotify (push j) ≠ none) →
      notifyDaemon none push url cid file d =
        (.WriteFile file d :: (failedAttempts url cid d 4 ++ [.Post url cid d]),
          httpNotify (push 4))) ∧
    ((notifyDaemon none push url cid file d).2 = none ↔
      ∃ k, k < 5 ∧ httpNotify (push k) = none) ∧
    (∀ o, httpNotify o = none ↔ ∃ body, o = .response 204 body) := by
  refine ⟨?_, ?_, ?_, httpNotify_eq_none⟩
  · intro k hk hf hs
    have := notifyLoop_success push url cid d k http_retry_times 0 rfl hk
      (fun j hj => by rw [Nat.zero_add]; exact hf j hj) (by rw [Nat.zero_add]; exact hs)
    simp only [notifyDaemon, this]
  · intro hf
    have := notifyLoop_failure push url cid d 4 0 rfl
      (fun j hj => by rw [Nat.zero_add]; exact hf j hj)
    simp only [notifyDaemon]
    rw [show http_retry_times = 4 + 1 from rfl, this]
    rfl
  · have := notifyLoop_none_iff push url cid d 4 0 rfl
    simp only [Nat.zero_add] at this
    simp only [notifyDaemon]
    rw [show http_retry_times = 4 + 1 from rfl]
    exact this

/-- C8, witness: four failures of different kinds and a 204 on the fifth attempt give success
after exactly four sleeps of 3 seconds. -/
theorem notifyDaemon_retries_witness :
    notifyDaemon none exPush notify_stop_url "c1" stop_status_file "status" =
      (.WriteFile stop_status_file "status" ::
        (failedAttempts notify_stop_url "c1" "status" 4 ++ [.Post notify_stop_url "c1" "status"]),
        none) ∧
    failedAttempts notify_stop_url "c1" "status" 4 =
      [.Post notify_stop_url "c1" "status", .Sleep 3, .Post notify_stop_url "c1" "status", .Sleep 3,
       .Post notify_stop_url "c1" "status", .Sleep 3, .Post notify_stop_url "c1" "status", .Sleep 3] :=
  ⟨(notifyDaemon_retries exPush notify_stop_url "c1" stop_status_file "status").1 4 (by decide)
    (by decide) (by decide), by decide⟩

/-- C9. `notifyDaemon` is disk-first: when the write of the status file fails it returns that
error and nothing is pushed; otherwise the first event is the write of the payload to the
status file and every later event is a push of that same payload or a sleep. The same holds of
`notifyStart` and `notifyStop`, with their own file and url, for the marshalled status. -/
theorem notifyDaemon_disk_first (push : Nat → PushOutcome) (url cid file d : String) :
    (∀ e, notifyDaemon (some e) push url cid file d = ([], some e)) ∧
    (∃ rest, (notifyDaemon none push url cid file d).1 = .WriteFile file d :: rest ∧
      ∀ ev ∈ rest, ev = .Post url cid d ∨ ev = .Sleep http_retry_interval_second) ∧
    (∀ w pre u c x post, (notifyDaemon w push url cid file d).1 = pre ++ .Post u c x :: post →
      w = none ∧ x = d ∧ ∃ pre2, pre = .WriteFile file d :: pre2) ∧
    (∀ w, notifyStart (.ok d) w push cid = notifyDaemon w push notify_start_url cid
      start_status_file d) ∧
    (∀ w, notifyStop (.ok d) w push cid = notifyDaemon w push notify_stop_url cid
      stop_status_file d) := by
  have hloop : ∀ (n i : Nat), ∀ ev ∈ (notifyLoop push url cid d n i).1,
      ev = .Post url cid d ∨ ev = .Sleep http_retry_interval_second := by
    intro n
    induction n with
    | zero => intro i ev hev; simp [notifyLoop] at hev
    | succ n ih =>
      intro i ev hev
      simp only [notifyLoop] at hev
      split at hev
      · split at hev
        · simp only [List.mem_singleton] at hev
          exact Or.inl hev
        · simp only [List.mem_cons] at hev
          rcases hev with h | h | h
          · exact Or.inl h
          · exact Or.inr h
          · exact ih _ ev h
      · simp only [List.mem_singleton] at hev
        exact Or.inl hev
  refine ⟨fun e => rfl, ⟨_, rfl, hloop _ _⟩, ?_, fun w => rfl, fun w => rfl⟩
  intro w pre u c x post h
  cases w with
  | some e => simp [notifyDaemon] at h
  | none =>
    simp only [notifyDaemon] at h
    cases pre with
    | nil => simp at h
    | cons a pre2 =>
      simp only [List.cons_append, List.cons.injEq] at h
      obtain ⟨ha, hrest⟩ := h
      have hmem : Event.Post u c x ∈ (notifyLoop push url cid d http_retry_times 0).1 := by
        rw [hrest]; simp
      rcases hloop _ _ _ hmem with h1 | h1
      · simp only [Event.Post.injEq] at h1
        exact ⟨rfl, h1.2.2, pre2, by rw [← ha]⟩
      · cases h1

end DockerEric
